import Mathlib

/-!
Verification development for the `diffchunk` pipeline
(`src/diffchunk/parser.py`, `src/diffchunk/filters.py`,
`src/diffchunk/chunker.py`).

The Python source is shallowly embedded: each Python function becomes a
Lean function over explicit data.  Text lines are represented as
`List Char`; a diff input is the list of lines produced by
`stream.readlines()` (each element carries its trailing newline, and an
element contains no interior `'\x0a'` because `readlines` splits on
newlines).  Python's compiled regular expressions are embedded as
hand-written matchers whose doc comments justify the translation of each
pattern, including `re.match` anchoring (start only), `$` matching at the
end of the string or just before a final newline, and `.` not matching a
newline.
-/

namespace Diffchunk

/-- A text line, as a list of characters. -/
abbrev Line := List Char

/-- Characters removed by Python's `str.rstrip('\n\r')`. -/
def isNlCr (c : Char) : Bool := c = '\n' ∨ c = '\r'

/-- Python `line.rstrip('\n\r')`: remove all trailing `'\n'`/`'\r'` characters. -/
def rstrip (l : Line) : Line := (l.reverse.dropWhile isNlCr).reverse

/-- Helper for Python-regex `$` semantics: `$` matches at the end of the
string or just before a newline that ends the string, so a pattern of the
form `...$` matched with `re.match` consumes the whole string after an
optional single final `'\n'` is set aside.  `chompNl` removes that
optional final newline. -/
def chompNl (l : Line) : Line :=
  match l.reverse with
  | '\n' :: t => t.reverse
  | _ => l

/-- Whitespace characters for Python's `\s` / `str.strip()` / `str.isspace`
(ASCII part; the rare non-ASCII whitespace code points are not modelled
since no diff-relevant input contains them). -/
def isPySpace (c : Char) : Bool :=
  c = ' ' ∨ c = '\t' ∨ c = '\n' ∨ c = '\r' ∨ c = '\x0b' ∨ c = '\x0c'

/-- ASCII decimal digit, as matched by `\d` on the inputs of interest. -/
def isDigitChar (c : Char) : Bool := '0' ≤ c ∧ c ≤ '9'

/-- Value of a string of decimal digits, as computed by Python `int()`. -/
def digitsToNat (l : Line) : Nat :=
  l.foldl (fun acc c => acc * 10 + (c.toNat - '0'.toNat)) 0

/-- Python `str.strip()` (both ends). -/
def pyStrip (l : Line) : Line :=
  ((l.dropWhile isPySpace).reverse.dropWhile isPySpace).reverse

/-- Python `str.rstrip()` (trailing whitespace only). -/
def rstripWs (l : Line) : Line := (l.reverse.dropWhile isPySpace).reverse

/-- Index of the last position `i` of `s` at which `sep` occurs, if any.
Used to embed a greedy `(.*)` followed by a literal separator: the greedy
group extends to the last occurrence of the separator. -/
def lastOccurrence (sep s : Line) : Option Nat :=
  ((List.range (s.length + 1)).filter (fun i => sep.isPrefixOf (s.drop i))).getLast?

/-! ### Regex matchers of `DiffParser` (parser.py lines 38-44)

All patterns are applied with `re.match` to a line already stripped of
trailing `'\n'`/`'\r'` (parser.py always matches `line.rstrip('\n\r')`),
but the matchers below are faithful for arbitrary strings: `chompNl`
implements the `$` anchor, `.`-groups are required to be newline-free,
and `\s` classes accept newlines. -/

/-- `FILE_HEADER_PATTERN = ^diff --git a/(.*) b/(.*)$`.  The first greedy
`(.*)` extends to the last occurrence of the literal `" b/"`; both groups
are newline-free, so the whole (``$``-chomped) string must be. -/
def fileHeaderMatch (l : Line) : Option (Line × Line) :=
  let s := chompNl l
  if s.contains '\n' then none
  else if ("diff --git a/".toList).isPrefixOf s then
    let rest := s.drop 13
    match lastOccurrence " b/".toList rest with
    | some i => some (rest.take i, rest.drop (i + 3))
    | none => none
  else none

/-- Greedy `\d+`: split off the maximal leading run of digits. -/
def takeDigits (s : Line) : Line × Line := (s.takeWhile isDigitChar, s.dropWhile isDigitChar)

/-- `HUNK_HEADER_PATTERN = ^@@ -(\d+)(?:,(\d+))? \+(\d+)(?:,(\d+))? @@.*$`.
Returns the four numeric groups (the optional count groups as `Option`).
The trailing `.*$` accepts any newline-free tail. -/
def hunkMatch (l : Line) : Option (Nat × Option Nat × Nat × Option Nat) :=
  let s := chompNl l
  if ("@@ -".toList).isPrefixOf s then
    let p1 := takeDigits (s.drop 4)
    if p1.1.isEmpty then none else
    let step1 : Option (Option Nat × Line) :=
      match p1.2 with
      | ',' :: t =>
        let p2 := takeDigits t
        if p2.1.isEmpty then none else some (some (digitsToNat p2.1), p2.2)
      | r => some (none, r)
    match step1 with
    | none => none
    | some (oc, r3) =>
      if (" +".toList).isPrefixOf r3 then
        let p3 := takeDigits (r3.drop 2)
        if p3.1.isEmpty then none else
        let step2 : Option (Option Nat × Line) :=
          match p3.2 with
          | ',' :: t =>
            let p4 := takeDigits t
            if p4.1.isEmpty then none else some (some (digitsToNat p4.1), p4.2)
          | r => some (none, r)
        match step2 with
        | none => none
        | some (nc, r5) =>
          if (" @@".toList).isPrefixOf r5 && !((r5.drop 3).contains '\n')
          then some (digitsToNat p1.1, oc, digitsToNat p3.1, nc)
          else none
      else none
  else none

/-- `BINARY_PATTERN = ^Binary files? .* differ$`: a newline-free
(`$`-chomped) string starting with `"Binary files "` or `"Binary file "`,
ending with `" differ"`, long enough that prefix and suffix do not
overlap (the `.*` in between may be empty). -/
def binaryMatch (l : Line) : Bool :=
  let s := chompNl l
  !(s.contains '\n') &&
    ((("Binary files ".toList).isPrefixOf s && (" differ".toList).isSuffixOf s
        && decide (20 ≤ s.length))
     || (("Binary file ".toList).isPrefixOf s && (" differ".toList).isSuffixOf s
        && decide (19 ≤ s.length)))

/-- `NEW_FILE_MODE_PATTERN = ^new file mode \d+$`. -/
def newModeMatch (l : Line) : Bool :=
  let s := chompNl l
  ("new file mode ".toList).isPrefixOf s &&
    !(s.drop 14).isEmpty && (s.drop 14).all isDigitChar

/-- `DELETED_FILE_MODE_PATTERN = ^deleted file mode \d+$`. -/
def delModeMatch (l : Line) : Bool :=
  let s := chompNl l
  ("deleted file mode ".toList).isPrefixOf s &&
    !(s.drop 18).isEmpty && (s.drop 18).all isDigitChar

/-- `OLD_FILE_PATTERN = ^--- (.*)$`. -/
def oldFileMatch (l : Line) : Bool :=
  let s := chompNl l
  ("--- ".toList).isPrefixOf s && !((s.drop 4).contains '\n')

/-- `NEW_FILE_PATTERN = ^\+\+\+ (.*)$`. -/
def newFileMatch (l : Line) : Bool :=
  let s := chompNl l
  ("+++ ".toList).isPrefixOf s && !((s.drop 4).contains '\n')

/-! ### Data model (parser.py lines 8-31) -/

/-- `FileChange` dataclass. -/
structure FileChange where
  old_path : Line
  new_path : Line
  old_start : Nat
  old_count : Nat
  new_start : Nat
  new_count : Nat
  lines : List Line
  is_binary : Bool
  is_new_file : Bool
  is_deleted_file : Bool
deriving DecidableEq, Repr

/-- `DiffStats` dataclass. -/
structure DiffStats where
  total_lines : Nat
  files_changed : Nat
  additions : Nat
  deletions : Nat
  binary_files : Nat
  trivial_changes : Nat
deriving DecidableEq, Repr

/-! ### Parser (parser.py lines 55-193)

The index-walking loops of `DiffParser` are embedded over suffixes of the
line list.  `_parse_file_change` can return `start_idx` itself (its
`i -= 1` back-up when the very next line is another `diff --git` header),
which makes `parse_stream`'s outer loop restart at an already-processed
position; the outer loop therefore takes explicit fuel, and `none` means
the Python loop does not terminate. -/

/-- The `startswith(' ')/('+')/('-')/('\\')` test of the inner hunk loop
(parser.py lines 172-173). -/
def isHunkContentLine (s : Line) : Bool :=
  match s with
  | [] => false
  | c :: _ => c = ' ' || c = '+' || c = '-' || c = '\\'

/-- Inner `while` of `_parse_hunks` (parser.py lines 169-178): consume
lines while they begin with space/`+`/`-`/`\`.  Returns the unconsumed
suffix (raw) and the consumed lines (normalized). -/
def hunkContent : List Line → List Line × List Line
  | [] => ([], [])
  | l :: rest =>
    let s := rstrip l
    if isHunkContentLine s then
      let p := hunkContent rest
      (p.1, s :: p.2)
    else (l :: rest, [])

/-- Outer loop of `_parse_hunks` (parser.py lines 160-183), with fuel; the
loop consumes at least one line per iteration, so fuel equal to the length
of the suffix is always sufficient (see `parseHunks`). -/
def parseHunksAux : Nat → List Line → List Line × List Line
  | 0, ls => (ls, [])
  | _, [] => ([], [])
  | fuel + 1, l :: rest =>
    let s := rstrip l
    if (hunkMatch s).isSome then
      let p := hunkContent rest
      let q := parseHunksAux fuel p.1
      (q.1, s :: (p.2 ++ q.2))
    else if ("diff --git".toList).isPrefixOf s then (l :: rest, [])
    else parseHunksAux fuel rest

/-- `_parse_hunks` on a suffix of the input: returns the unconsumed suffix
and the collected hunk lines. -/
def parseHunks (ls : List Line) : List Line × List Line :=
  parseHunksAux ls.length ls

/-- Result of the metadata loop of `_parse_file_change`. -/
structure MetaOut where
  rem : List Line
  body : List Line
  is_binary : Bool
  is_new_file : Bool
  is_deleted_file : Bool
deriving DecidableEq, Repr

/-- Metadata loop of `_parse_file_change` (parser.py lines 102-128) on the
suffix following the header line.  `prev` is the raw line preceding the
current suffix (initially the header line itself): on seeing another
`diff --git` line the Python loop does `i -= 1; break`, i.e. it returns
with the scan position on `prev`, which is modelled by re-prepending
`prev` to the remainder.  Every examined line is appended to `body`
(normalized) before any test, so the closing `diff --git` line itself ends
up in `body`. -/
def parseMeta (prev : Line) (inNew inDel : Bool) : List Line → MetaOut
  | [] => ⟨[], [], false, inNew, inDel⟩
  | l :: rest =>
    let s := rstrip l
    if binaryMatch s then ⟨rest, [s], true, inNew, inDel⟩
    else if newModeMatch s then
      let m := parseMeta l true inDel rest
      ⟨m.rem, s :: m.body, m.is_binary, m.is_new_file, m.is_deleted_file⟩
    else if delModeMatch s then
      let m := parseMeta l inNew true rest
      ⟨m.rem, s :: m.body, m.is_binary, m.is_new_file, m.is_deleted_file⟩
    else if oldFileMatch s then
      let m := parseMeta l inNew inDel rest
      ⟨m.rem, s :: m.body, m.is_binary, m.is_new_file, m.is_deleted_file⟩
    else if newFileMatch s then
      let m := parseMeta l inNew inDel rest
      ⟨m.rem, s :: m.body, m.is_binary, m.is_new_file, m.is_deleted_file⟩
    else if (hunkMatch s).isSome then
      let p := parseHunks (l :: rest)
      ⟨p.1, s :: p.2, false, inNew, inDel⟩
    else if ("diff --git".toList).isPrefixOf s then
      ⟨prev :: l :: rest, [s], false, inNew, inDel⟩
    else
      let m := parseMeta l inNew inDel rest
      ⟨m.rem, s :: m.body, m.is_binary, m.is_new_file, m.is_deleted_file⟩

/-- Scan for the first hunk header among the collected lines and extract
its numeric groups, missing counts defaulting to `1`; all-zero defaults if
no hunk header occurs (parser.py lines 130-138). -/
def firstHunkNums : List Line → Nat × Nat × Nat × Nat
  | [] => (0, 0, 0, 0)
  | l :: rest =>
    match hunkMatch l with
    | some (os, oc, ns, nc) => (os, oc.getD 1, ns, nc.getD 1)
    | none => firstHunkNums rest

/-- `_parse_file_change` (parser.py lines 90-153): `hdr` is the raw header
line, `op`/`np` its regex groups, `rest` the suffix after it.  Returns the
unconsumed suffix and the constructed `FileChange`. -/
def parseFileChange (hdr : Line) (op np : Line) (rest : List Line) :
    List Line × FileChange :=
  let m := parseMeta hdr false false rest
  let file_lines := rstrip hdr :: m.body
  let nums := firstHunkNums file_lines
  (m.rem,
   { old_path := op
     new_path := np
     old_start := nums.1
     old_count := nums.2.1
     new_start := nums.2.2.1
     new_count := nums.2.2.2
     lines := file_lines
     is_binary := m.is_binary
     is_new_file := m.is_new_file
     is_deleted_file := m.is_deleted_file })

/-- Outer loop of `parse_stream` (parser.py lines 63-78), with fuel.
`none` models nontermination of the Python loop (which can happen, see
`parse_diverges_on_adjacent_headers`). -/
def parseLoopAux : Nat → List FileChange → List Line → Option (List FileChange)
  | 0, _, _ => none
  | _, acc, [] => some acc
  | fuel + 1, acc, l :: rest =>
    match fileHeaderMatch (rstrip l) with
    | some g =>
      let p := parseFileChange l g.1 g.2 rest
      parseLoopAux fuel (acc ++ [p.2]) p.1
    | none => parseLoopAux fuel acc rest

/-- `parse_stream`, restricted to its list of `FileChange`s.  A
terminating run of the Python loop advances its index by at least one per
iteration, so `length + 1` rounds of fuel recover exactly the Python
result; `none` means the Python loop runs forever. -/
def parse (input : List Line) : Option (List FileChange) :=
  parseLoopAux (input.length + 1) [] input

/-- The `line.startswith('+') and not line.startswith('+++')` test used
for the addition count (parser.py lines 83-84). -/
def isAdditionLine (s : Line) : Bool :=
  ("+".toList).isPrefixOf s && !(("+++".toList).isPrefixOf s)

/-- The deletion-count test (parser.py lines 85-86). -/
def isDeletionLine (s : Line) : Bool :=
  ("-".toList).isPrefixOf s && !(("---".toList).isPrefixOf s)

/-- Final statistics of `parse_stream` (parser.py lines 61, 74-76, 80-86):
computed from the input length and the collected `FileChange`s. -/
def computeStats (inputLen : Nat) (fcs : List FileChange) : DiffStats :=
  { total_lines := inputLen
    files_changed := fcs.length
    additions := (fcs.flatMap (·.lines)).countP isAdditionLine
    deletions := (fcs.flatMap (·.lines)).countP isDeletionLine
    binary_files := (fcs.filter (·.is_binary)).length
    trivial_changes := 0 }

/-- `parse_stream` with its statistics. -/
def parseWithStats (input : List Line) : Option (List FileChange × DiffStats) :=
  (parse input).map (fun fcs => (fcs, computeStats input.length fcs))

/-! ### Filter (filters.py)

`ChangeFilter` is embedded as pure functions.  The set of compiled
generated-file patterns is abstracted into a predicate
`genMatch : Line → Bool` standing for
`any(pattern.match(path) for pattern in self.generated_patterns)`:
the claims about the filter hold for every such predicate, so nothing
about the individual patterns is needed. -/

/-- `WHITESPACE_ONLY_PATTERN = ^[+-]\s*$`: a marker character followed by
whitespace only.  (`\s` accepts `'\n'`, so the `$`-before-final-newline
case is subsumed: the chomped newline is itself whitespace.) -/
def wsOnlyMatch (l : Line) : Bool :=
  match l with
  | [] => false
  | c :: rest => (c = '+' || c = '-') && rest.all isPySpace

/-- `NEWLINE_ONLY_PATTERN = ^[+-]$`: exactly a marker character (possibly
followed by a final newline, per `$`). -/
def nlOnlyMatch (l : Line) : Bool :=
  match chompNl l with
  | [c] => c = '+' || c = '-'
  | _ => false

/-- Content group of `TRAILING_WHITESPACE_PATTERN = ^([+-])(.*)(\s+)$`
when it matches the part after the marker: the greedy `(.*)` cannot cross
a newline and must leave a nonempty all-whitespace remainder for
`(\s+)$`, so the successful greedy split takes
`K = min (chars before the first newline) (length - 1)` characters iff
everything after position `K` is whitespace. -/
def trailingWsContent (rest : Line) : Option Line :=
  if !rest.isEmpty &&
      (rest.drop (min (rest.takeWhile (fun c => !(c = '\n'))).length (rest.length - 1))).all isPySpace
  then some (rest.take (min (rest.takeWhile (fun c => !(c = '\n'))).length (rest.length - 1)))
  else none

/-- `_is_trailing_whitespace_change` (filters.py lines 129-138): the
pattern must match and the content group must strip to the empty string. -/
def isTrailingWsChange (l : Line) : Bool :=
  match l with
  | [] => false
  | c :: rest =>
    if c = '+' || c = '-' then
      match trailingWsContent rest with
      | some content => (pyStrip content).isEmpty
      | none => false
    else false

/-- `_is_trivial_line` (filters.py lines 105-127). -/
def isTrivialLine (l : Line) : Bool :=
  if !(("+".toList).isPrefixOf l || ("-".toList).isPrefixOf l) then false
  else if ("+++".toList).isPrefixOf l || ("---".toList).isPrefixOf l then false
  else if wsOnlyMatch l then true
  else if nlOnlyMatch l then true
  else if isTrailingWsChange l then true
  else false

/-- `_filter_trivial_lines` (filters.py lines 94-103). -/
def filterTrivialLines (lines : List Line) : List Line :=
  lines.filter (fun l => !(isTrivialLine l))

/-- `_has_significant_changes` (filters.py lines 140-151). -/
def hasSignificantChanges (lines : List Line) : Bool :=
  decide (0 < lines.countP (fun l => isAdditionLine l || isDeletionLine l))

/-- `_should_skip_file` (filters.py lines 82-92), with the compiled
pattern set abstracted as `genMatch`. -/
def shouldSkipFile (skipGenerated : Bool) (genMatch : Line → Bool)
    (change : FileChange) : Bool :=
  skipGenerated && (genMatch change.new_path || genMatch change.old_path)

/-- `filter_changes` (filters.py lines 47-80) as a pure function: returns
the filtered list together with the final `trivial_count`. -/
def filterChanges (skipTrivial skipGenerated : Bool) (genMatch : Line → Bool) :
    List FileChange → List FileChange × Nat
  | [] => ([], 0)
  | change :: rest =>
    let p := filterChanges skipTrivial skipGenerated genMatch rest
    if shouldSkipFile skipGenerated genMatch change then (p.1, p.2 + 1)
    else if skipTrivial then
      let filtered_lines := filterTrivialLines change.lines
      if hasSignificantChanges filtered_lines then
        ({ change with lines := filtered_lines } :: p.1, p.2)
      else (p.1, p.2 + 1)
    else (change :: p.1, p.2)

/-! ### Chunker (chunker.py)

`DiffChunker` accumulates chunks through `_add_chunk`; the chunk list is
threaded explicitly.  `max_lines` is a Python `int`, so it is embedded as
`Int`.  The file-boundary pipeline can raise `ValueError` inside
`_split_large_file` (Python `range` with step `0`), so it returns
`Except String`. -/

/-- `DiffChunk` dataclass. -/
structure DiffChunk where
  chunk_number : Nat
  total_chunks : Nat
  file_changes : List FileChange
  line_count : Nat
  file_count : Nat
  summary : Line
deriving DecidableEq, Repr

/-- `DiffChunker.__init__` state (chunker.py lines 23-26).  Note that the
constructor performs no validation of `max_lines`. -/
structure DiffChunker where
  max_lines : Int
  prefer_file_boundaries : Bool
  chunks : List DiffChunk
deriving DecidableEq, Repr

/-- `DiffChunker.__init__` (chunker.py lines 23-26): stores the arguments
unconditionally; there is no rejection path for any `max_lines`. -/
def DiffChunker.init (max_lines : Int) (prefer_file_boundaries : Bool) : DiffChunker :=
  { max_lines := max_lines
    prefer_file_boundaries := prefer_file_boundaries
    chunks := [] }

/-- First-seen distinct `new_path` collection of `_add_chunk`
(chunker.py lines 169-172). -/
def collectPaths (file_changes : List FileChange) : List Line :=
  file_changes.foldl
    (fun acc change => if acc.contains change.new_path then acc else acc ++ [change.new_path])
    []

/-- `_generate_summary` (chunker.py lines 187-194). -/
def generateSummary (file_paths : List Line) : Line :=
  if file_paths.length = 1 then
    "Changes to ".toList ++ file_paths.headI
  else if file_paths.length ≤ 3 then
    "Changes to ".toList ++ List.intercalate ", ".toList file_paths
  else
    "Changes to ".toList ++ file_paths.headI ++ ", ".toList ++ (file_paths.drop 1).headI
      ++ " and ".toList ++ (Nat.repr (file_paths.length - 2)).toList ++ " other files".toList

/-- `_add_chunk` (chunker.py lines 167-185): append a chunk numbered
`len(chunks) + 1` with a placeholder `total_chunks = 0`. -/
def addChunk (chunks : List DiffChunk) (file_changes : List FileChange)
    (line_count : Nat) : List DiffChunk :=
  let file_paths := collectPaths file_changes
  chunks ++
    [{ chunk_number := chunks.length + 1
       total_chunks := 0
       file_changes := file_changes
       line_count := line_count
       file_count := file_paths.length
       summary := generateSummary file_paths }]

/-- Header test of `_split_large_file` (chunker.py lines 131-141). -/
def isHeaderLine (l : Line) : Bool :=
  ("diff --git".toList).isPrefixOf l || ("index ".toList).isPrefixOf l
    || ("---".toList).isPrefixOf l || ("+++".toList).isPrefixOf l
    || ("new file mode".toList).isPrefixOf l || ("deleted file mode".toList).isPrefixOf l
    || ("Binary files".toList).isPrefixOf l

/-- Consecutive slices of size `k` (Python
`[xs[i:i+k] for i in range(0, len(xs), k)]`), via structural fuel; the
fuel `xs.length` is always sufficient for `k ≥ 1`, and `k = 0` (which
would be a `ValueError` in Python) is never reached by callers. -/
def sliceListAux (k : Nat) : Nat → List α → List (List α)
  | 0, _ => []
  | _, [] => []
  | fuel + 1, xs => if k = 0 then [] else xs.take k :: sliceListAux k fuel (xs.drop k)

/-- Consecutive slices of size `k` of a list. -/
def sliceList (k : Nat) (xs : List α) : List (List α) := sliceListAux k xs.length xs

/-- Content slice size chosen by `_split_large_file`
(chunker.py lines 143-146), including the `max_lines // 2` fallback
(Python `//` floors, i.e. `Int.fdiv`). -/
def splitSize (max_lines : Int) (change : FileChange) : Int :=
  let header_len := (change.lines.filter isHeaderLine).length
  if max_lines - header_len ≤ 0 then Int.fdiv max_lines 2 else max_lines - header_len

/-- `_split_large_file` (chunker.py lines 124-165).  A slice size of `0`
reproduces Python's `ValueError: range() arg 3 must not be zero`; a
negative slice size makes the Python `range` empty, emitting no chunk. -/
def splitLargeFile (max_lines : Int) (chunks : List DiffChunk)
    (change : FileChange) : Except String (List DiffChunk) :=
  let header_lines := change.lines.filter isHeaderLine
  let content_lines := change.lines.filter (fun l => !(isHeaderLine l))
  let chunk_size := splitSize max_lines change
  if chunk_size = 0 then .error "range() arg 3 must not be zero"
  else if chunk_size < 0 then .ok chunks
  else
    .ok ((sliceList chunk_size.toNat content_lines).foldl
      (fun cs chunk_content =>
        let chunk_lines := header_lines ++ chunk_content
        addChunk cs [{ change with lines := chunk_lines }] chunk_lines.length)
      chunks)

/-- First conditional of the file loop of `_chunk_by_file_boundaries`
(chunker.py lines 50-57): finalize the pending buffer when adding the
next file would exceed `max_lines` and the buffer is non-empty. -/
def flushPending (max_lines : Int) (flc : Nat) (chunks : List DiffChunk)
    (cur : List FileChange) (curCount : Nat) :
    List DiffChunk × List FileChange × Nat :=
  if (max_lines < (curCount + flc : Int)) ∧ ¬ cur.isEmpty then
    (addChunk chunks cur curCount, [], 0)
  else (chunks, cur, curCount)

/-- Second conditional (chunker.py lines 61-65): flush any pending files
before splitting an oversized one. -/
def flushAll (chunks : List DiffChunk) (cur : List FileChange) (curCount : Nat) :
    List DiffChunk × List FileChange × Nat :=
  if ¬ cur.isEmpty then (addChunk chunks cur curCount, [], 0)
  else (chunks, cur, curCount)

/-- `_chunk_by_file_boundaries` (chunker.py lines 42-76), processing the
remaining files with the pending buffer `cur`/`curCount` and the chunks
accumulated so far. -/
def chunkFB (max_lines : Int) :
    List FileChange → List DiffChunk → List FileChange → Nat →
    Except String (List DiffChunk)
  | [], chunks, cur, curCount =>
    .ok (if cur.isEmpty then chunks else addChunk chunks cur curCount)
  | change :: rest, chunks, cur, curCount =>
    let st1 := flushPending max_lines change.lines.length chunks cur curCount
    if max_lines < (change.lines.length : Int) then
      let st2 := flushAll st1.1 st1.2.1 st1.2.2
      match splitLargeFile max_lines st2.1 change with
      | .error e => .error e
      | .ok chunks' => chunkFB max_lines rest chunks' st2.2.1 st2.2.2
    else
      chunkFB max_lines rest st1.1 (st1.2.1 ++ [change]) (st1.2.2 + change.lines.length)

/-- Inner `while remaining_lines` of `_chunk_by_line_count`
(chunker.py lines 86-118).  The loop needs `0 < max_lines` to make
progress (each iteration then takes at least one line). -/
def chunkLCfile (max_lines : Int) (hmax : 0 < max_lines) (change : FileChange) :
    List Line → List DiffChunk → List FileChange → Nat →
    List DiffChunk × List FileChange × Nat
  | [], chunks, cur, curCount => (chunks, cur, curCount)
  | l :: rest, chunks, cur, curCount =>
    let remaining := l :: rest
    if max_lines - (curCount : Int) ≤ 0 then
      let chunks1 := if cur.isEmpty then chunks else addChunk chunks cur curCount
      let toTake := min remaining.length max_lines.toNat
      chunkLCfile max_lines hmax change (remaining.drop toTake) chunks1
        [{ change with lines := remaining.take toTake }] toTake
    else
      let toTake := min remaining.length (max_lines - (curCount : Int)).toNat
      chunkLCfile max_lines hmax change (remaining.drop toTake) chunks
        (cur ++ [{ change with lines := remaining.take toTake }]) (curCount + toTake)
  termination_by remaining _ _ _ => remaining.length
  decreasing_by
    all_goals simp [List.length_drop]
    all_goals omega

/-- Outer `for` of `_chunk_by_line_count` (chunker.py lines 83-118). -/
def chunkLCgo (max_lines : Int) (hmax : 0 < max_lines) :
    List FileChange → List DiffChunk × List FileChange × Nat →
    List DiffChunk × List FileChange × Nat
  | [], st => st
  | change :: rest, st =>
    chunkLCgo max_lines hmax rest
      (chunkLCfile max_lines hmax change change.lines st.1 st.2.1 st.2.2)

/-- `_chunk_by_line_count` (chunker.py lines 78-122). -/
def chunkByLineCount (max_lines : Int) (hmax : 0 < max_lines)
    (file_changes : List FileChange) : List DiffChunk :=
  let st := chunkLCgo max_lines hmax file_changes ([], [], 0)
  if st.2.1.isEmpty then st.1 else addChunk st.1 st.2.1 st.2.2

/-- `chunk_changes` (chunker.py lines 28-40).  In line-count mode with
`max_lines ≤ 0` and at least one nonempty `lines`, the Python inner loop
never terminates; this is modelled as an error value. -/
def chunkChanges (max_lines : Int) (prefer_file_boundaries : Bool)
    (file_changes : List FileChange) : Except String (List DiffChunk) :=
  if file_changes.isEmpty then .ok []
  else if prefer_file_boundaries then chunkFB max_lines file_changes [] [] 0
  else if hmax : 0 < max_lines then .ok (chunkByLineCount max_lines hmax file_changes)
  else if file_changes.all (fun c => c.lines.isEmpty) then .ok []
  else .error "nonterminating loop"

/-- `get_all_chunks` (chunker.py lines 205-210): stamp
`total_chunks = len(chunks)` on every chunk and return them. -/
def getAllChunks (chunks : List DiffChunk) : List DiffChunk :=
  chunks.map (fun c => { c with total_chunks := chunks.length })

/-- `get_chunk` (chunker.py lines 196-203): bounds-check the 1-based
number, stamp `total_chunks`, and return the chunk. -/
def getChunk (chunks : List DiffChunk) (chunk_number : Int) : Option DiffChunk :=
  if 1 ≤ chunk_number ∧ chunk_number ≤ (chunks.length : Int) then
    match chunks.get? (chunk_number - 1).toNat with
    | some c => some { c with total_chunks := chunks.length }
    | none => none
  else none

/-! ### General helper lemmas -/

/-- The first element surviving `dropWhile p` fails `p`. -/
theorem dropWhile_head_false (p : α → Bool) :
    ∀ (l : List α) (c : α) (t : List α), l.dropWhile p = c :: t → p c = false := by
  intro l
  induction l with
  | nil => intro c t h; simp [List.dropWhile] at h
  | cons a l ih =>
    intro c t h
    by_cases ha : p a
    · rw [List.dropWhile_cons_of_pos ha] at h
      exact ih c t h
    · rw [List.dropWhile_cons_of_neg ha] at h
      cases h
      simpa using ha

/-- A string already stripped of trailing newlines is unchanged by the
`$`-anchor chomp. -/
theorem chompNl_rstrip (l : Line) : chompNl (rstrip l) = rstrip l := by
  unfold chompNl
  split
  · next t heq =>
    exfalso
    have h2 : (rstrip l).reverse = l.reverse.dropWhile isNlCr := by
      simp [rstrip]
    rw [h2] at heq
    have := dropWhile_head_false isNlCr l.reverse _ _ heq
    simp [isNlCr] at this
  · rfl

/-- Two prefixes of the same string are comparable; used to refute that a
string can begin with two incompatible literals. -/
theorem pre_conflict {p q s : Line} (hp : p.isPrefixOf s = true)
    (hq : q.isPrefixOf s = true) (hlen : p.length ≤ q.length) :
    p.isPrefixOf q = true := by
  simp only [List.isPrefixOf_iff_prefix] at *
  exact List.prefix_of_prefix_length_le hp hq hlen

/-- `isPrefixOf` is transitive. -/
theorem prefixOf_trans {p q s : Line} (hpq : p.isPrefixOf q = true)
    (hqs : q.isPrefixOf s = true) : p.isPrefixOf s = true := by
  simp only [List.isPrefixOf_iff_prefix] at *
  exact hpq.trans hqs

/-- Python `content.strip()` is empty iff the string is all whitespace. -/
theorem pyStrip_isEmpty (l : Line) : (pyStrip l).isEmpty = l.all isPySpace := by
  cases h : l.all isPySpace with
  | true =>
    have : l.dropWhile isPySpace = [] := by
      rw [List.dropWhile_eq_nil_iff]
      intro x hx
      exact List.all_eq_true.mp h x hx
    simp [pyStrip, this]
  | false =>
    obtain ⟨x, hxl, hx⟩ := List.all_eq_false.mp h
    have hne : l.dropWhile isPySpace ≠ [] := by
      intro he
      exact hx (List.dropWhile_eq_nil_iff.mp he x hxl)
    obtain ⟨c, t, hct⟩ := List.exists_cons_of_ne_nil hne
    have hc : isPySpace c = false := dropWhile_head_false _ _ _ _ hct
    have hmem : c ∈ (l.dropWhile isPySpace).reverse := by
      rw [hct]; simp
    have hne2 : (l.dropWhile isPySpace).reverse.dropWhile isPySpace ≠ [] := by
      intro he
      have := List.dropWhile_eq_nil_iff.mp he c hmem
      simp [hc] at this
    simp only [pyStrip, List.isEmpty_iff, List.reverse_eq_nil_iff]
    simpa using hne2

/-! ### Claim C9 — constructor validation of `max_lines` -/

/-- C9: the claim says a `DiffChunker` constructed with `max_lines ≤ 0`
must be rejected eagerly at construction.  The constructor
(chunker.py lines 23-26) has no rejection path: it silently stores any
value, as this evaluation at the failing inputs `0` and `-5` shows. -/
theorem c9_init_accepts_nonpositive_max_lines :
    DiffChunker.init 0 true =
      { max_lines := 0, prefer_file_boundaries := true, chunks := [] } ∧
    DiffChunker.init (-5) false =
      { max_lines := -5, prefer_file_boundaries := false, chunks := [] } :=
  ⟨rfl, rfl⟩

/-! ### Claim C10 — the filter with both options off is the identity -/

/-- C10: with `skip_trivial = False` and `skip_generated = False`,
`filter_changes` returns every input `FileChange` unchanged, in order,
and reports `trivial_count = 0` — for any generated-pattern set. -/
theorem c10_filter_disabled_identity (genMatch : Line → Bool)
    (changes : List FileChange) :
    filterChanges false false genMatch changes = (changes, 0) := by
  induction changes with
  | nil => rfl
  | cons c rest ih => simp [filterChanges, shouldSkipFile, ih]

/-! ### Claim C6 — filter idempotence -/

/-- Removing trivial lines is idempotent (it is a `filter`). -/
theorem filterTrivialLines_idem (ls : List Line) :
    filterTrivialLines (filterTrivialLines ls) = filterTrivialLines ls := by
  simp [filterTrivialLines, List.filter_filter]

/-- `_should_skip_file` only inspects the two path fields, so it is
unchanged by replacing `lines`. -/
theorem shouldSkipFile_update_lines (sg : Bool) (gm : Line → Bool)
    (c : FileChange) (ls : List Line) :
    shouldSkipFile sg gm { c with lines := ls } = shouldSkipFile sg gm c := rfl

/-- C6: for every option setting, applying `filter_changes` a second time
to its own output returns that output unchanged and counts zero further
trivial changes. -/
theorem c6_filter_idempotent (st sg : Bool) (gm : Line → Bool)
    (changes : List FileChange) :
    filterChanges st sg gm (filterChanges st sg gm changes).1 =
      ((filterChanges st sg gm changes).1, 0) := by
  induction changes with
  | nil => rfl
  | cons c rest ih =>
    simp only [filterChanges]
    by_cases hskip : shouldSkipFile sg gm c = true
    · simpa [hskip] using ih
    · simp only [Bool.not_eq_true] at hskip
      cases st with
      | false =>
        simp [filterChanges, hskip, ih]
      | true =>
        by_cases hsig :
            hasSignificantChanges (filterTrivialLines c.lines) = true
        · simp only [hskip, hsig, Bool.false_eq_true, if_false, if_true, if_pos rfl]
          simp only [filterChanges, shouldSkipFile_update_lines, hskip,
            Bool.false_eq_true, if_false]
          have hlines : ({ c with lines := filterTrivialLines c.lines } :
              FileChange).lines = filterTrivialLines c.lines := rfl
          simp [hlines, filterTrivialLines_idem, hsig, ih]
        · simp only [Bool.not_eq_true] at hsig
          simpa [hskip, hsig] using ih

/-! ### Claim C7 — the trivial-line rule -/

/-- Modelled from the spec's words (spec.md §4.2, trivial-line rule), for
comparison with the code's `_is_trivial_line`: a `+`/`-` line (not a
`+++`/`---` header) is trivial iff the remainder after the marker is
empty or whitespace-only, or it differs from its semantic counterpart
only in trailing whitespace (stripping trailing whitespace leaves
non-empty, unchanged content). -/
def specTrivialLine (l counterpart : Line) : Bool :=
  match l, counterpart with
  | c :: rest, _ :: crest =>
    (c = '+' || c = '-') &&
      (!(("+++".toList).isPrefixOf l || ("---".toList).isPrefixOf l)) &&
      (rest.all isPySpace ||
        (!(rstripWs rest).isEmpty && rstripWs rest == rstripWs crest
          && !(rest == crest)))
  | _, _ => false

/-- C7 counterexample: the line `"+foo "` (counterpart `"-foo"`) is a pure
trailing-whitespace edit with non-empty content, so the claim classifies
it trivial; `_is_trivial_line` returns `False` for it (the
content-strips-to-empty requirement of `_is_trailing_whitespace_change`
rejects every line whose content is not itself whitespace). -/
theorem c7_counterexample :
    specTrivialLine "+foo ".toList "-foo".toList = true ∧
      isTrivialLine "+foo ".toList = false := by
  constructor
  · rfl
  · rfl

/-- `chompNl` either leaves the string unchanged or removes exactly one
final newline. -/
theorem chompNl_cases (l : Line) :
    chompNl l = l ∨ ∃ t, l = t ++ ['\n'] ∧ chompNl l = t := by
  unfold chompNl
  split
  · next t hrev =>
    right
    refine ⟨t.reverse, ?_, rfl⟩
    rw [← List.reverse_reverse l, hrev]
    simp
  · left; rfl

/-- If `NEWLINE_ONLY_PATTERN` matches `c :: rest` then `rest` is all
whitespace (it is `[]` or `['\n']`). -/
theorem nlOnly_all_ws (c : Char) (rest : Line)
    (h : nlOnlyMatch (c :: rest) = true) : rest.all isPySpace = true := by
  unfold nlOnlyMatch at h
  split at h
  · next d heq =>
    rcases chompNl_cases (c :: rest) with hch | ⟨t, hl, hch⟩
    · rw [hch] at heq
      have : rest = [] := by simpa using congrArg List.tail heq
      simp [this]
    · rw [hch] at heq
      subst heq
      have h3 : c :: rest = d :: ['\n'] := by simpa using hl
      injection h3 with _ h4
      simp [h4, isPySpace]
  · exact absurd h (by simp)

/-- If the trailing-whitespace pattern matches with an all-whitespace
content group, the whole remainder is whitespace. -/
theorem trailingWs_all_ws (rest : Line) (content : Line)
    (h : trailingWsContent rest = some content)
    (hc : (pyStrip content).isEmpty = true) : rest.all isPySpace = true := by
  unfold trailingWsContent at h
  split at h
  · next hcond =>
    simp only [Bool.and_eq_true] at hcond
    cases h
    rw [pyStrip_isEmpty] at hc
    rw [← List.take_append_drop
          (min (rest.takeWhile (fun c => !(c = '\n'))).length (rest.length - 1)) rest,
        List.all_append]
    simp [hc, hcond.2]
  · exact absurd h (by simp)

/-- C7 amended: `_is_trivial_line` classifies a `+`/`-` non-header line as
trivial iff the remainder after the marker is empty or whitespace-only.
The trailing-whitespace clause of the claim does not hold: the code's
trailing-whitespace check fires only when the content before the trailing
whitespace itself strips to empty, so it adds nothing beyond the
whitespace-only case (see `c7_counterexample`). -/
theorem c7_trivial_iff_whitespace_only (c : Char) (rest : Line)
    (hm : c = '+' ∨ c = '-')
    (hh : ¬ (("+++".toList).isPrefixOf (c :: rest) = true ∨
             ("---".toList).isPrefixOf (c :: rest) = true)) :
    isTrivialLine (c :: rest) = rest.all isPySpace := by
  push_neg at hh
  obtain ⟨hh1, hh2⟩ := hh
  have hstart : (("+".toList).isPrefixOf (c :: rest) ||
      ("-".toList).isPrefixOf (c :: rest)) = true := by
    rcases hm with h | h <;> subst h <;> simp [List.isPrefixOf]
  unfold isTrivialLine
  rw [hstart]
  simp only [Bool.not_true, Bool.false_eq_true, if_false]
  rw [if_neg (by
    simp only [Bool.or_eq_true]
    rintro (h | h)
    exacts [hh1 h, hh2 h])]
  cases hall : rest.all isPySpace with
  | true =>
    have hws : wsOnlyMatch (c :: rest) = true := by
      unfold wsOnlyMatch
      rcases hm with h | h <;> subst h <;> simp [hall]
    simp [hws]
  | false =>
    have hws : wsOnlyMatch (c :: rest) = false := by
      unfold wsOnlyMatch
      simp [hall]
    have hnl : nlOnlyMatch (c :: rest) = false := by
      cases h2 : nlOnlyMatch (c :: rest) with
      | true => rw [nlOnly_all_ws c rest h2] at hall; cases hall
      | false => rfl
    have htr : isTrailingWsChange (c :: rest) = false := by
      unfold isTrailingWsChange
      cases h3 : trailingWsContent rest with
      | none => rcases hm with h | h <;> subst h <;> simp [h3]
      | some content =>
        cases h4 : (pyStrip content).isEmpty with
        | true => rw [trailingWs_all_ws rest content h3 h4] at hall; cases hall
        | false => rcases hm with h | h <;> subst h <;> simp [h3, h4]
    simp [hws, hnl, htr]

/-- Witness for `c7_trivial_iff_whitespace_only` at the line `"- \t"`. -/
theorem c7_trivial_iff_whitespace_only_witness :
    isTrivialLine ('-' :: " \t".toList) = (" \t".toList).all isPySpace :=
  c7_trivial_iff_whitespace_only '-' " \t".toList (Or.inr rfl) (by decide)

/-! ### Claim C5 — chunk numbering and `total_chunks` stamping -/

/-- The chunks collected so far are numbered `1, 2, ..., n` in order. -/
def Numbered (cs : List DiffChunk) : Prop :=
  cs.map (·.chunk_number) = List.range' 1 cs.length

theorem numbered_nil : Numbered [] := rfl

theorem numbered_addChunk {cs : List DiffChunk} (h : Numbered cs)
    (fcs : List FileChange) (n : Nat) : Numbered (addChunk cs fcs n) := by
  unfold Numbered addChunk
  simp only [List.map_append, List.length_append, List.map_cons, List.map_nil,
    List.length_cons, List.length_nil]
  rw [h, List.range'_concat]
  simp [Nat.add_comm]

theorem numbered_foldl {β : Type} (f : β → List FileChange) (g : β → Nat) :
    ∀ (xs : List β) (cs : List DiffChunk), Numbered cs →
      Numbered (xs.foldl (fun acc x => addChunk acc (f x) (g x)) cs)
  | [], _, h => h
  | x :: xs, cs, h =>
    numbered_foldl f g xs (addChunk cs (f x) (g x)) (numbered_addChunk h _ _)

theorem numbered_splitLargeFile {max_lines : Int} {cs cs' : List DiffChunk}
    {change : FileChange} (h : splitLargeFile max_lines cs change = .ok cs')
    (hn : Numbered cs) : Numbered cs' := by
  unfold splitLargeFile at h
  dsimp only [] at h
  split at h
  · exact absurd h (by simp)
  · split at h
    · cases h; exact hn
    · cases h
      exact numbered_foldl
        (fun sl => [{ change with lines := change.lines.filter isHeaderLine ++ sl }])
        (fun sl => (change.lines.filter isHeaderLine ++ sl).length) _ _ hn

theorem numbered_flushPending {max_lines : Int} {flc : Nat}
    {cs : List DiffChunk} {cur : List FileChange} {cc : Nat} (h : Numbered cs) :
    Numbered (flushPending max_lines flc cs cur cc).1 := by
  unfold flushPending
  split
  · exact numbered_addChunk h _ _
  · exact h

theorem numbered_flushAll {cs : List DiffChunk} {cur : List FileChange}
    {cc : Nat} (h : Numbered cs) : Numbered (flushAll cs cur cc).1 := by
  unfold flushAll
  split
  · exact numbered_addChunk h _ _
  · exact h

theorem numbered_chunkFB {max_lines : Int} :
    ∀ (rest : List FileChange) (cs : List DiffChunk) (cur : List FileChange)
      (cc : Nat) (out : List DiffChunk), Numbered cs →
      chunkFB max_lines rest cs cur cc = .ok out → Numbered out := by
  intro rest
  induction rest with
  | nil =>
    intro cs cur cc out hn h
    rw [chunkFB] at h
    cases h
    split
    · exact hn
    · exact numbered_addChunk hn _ _
  | cons change rest ih =>
    intro cs cur cc out hn h
    rw [chunkFB] at h
    simp only [] at h
    split at h
    · cases hsp : splitLargeFile max_lines
          (flushAll (flushPending max_lines change.lines.length cs cur cc).1
            (flushPending max_lines change.lines.length cs cur cc).2.1
            (flushPending max_lines change.lines.length cs cur cc).2.2).1 change with
      | error e => rw [hsp] at h; exact absurd h (by simp)
      | ok chunks' =>
        rw [hsp] at h
        exact ih _ _ _ _
          (numbered_splitLargeFile hsp (numbered_flushAll (numbered_flushPending hn))) h
    · exact ih _ _ _ _ (numbered_flushPending hn) h

theorem numbered_chunkLCfile {max_lines : Int} {hmax : 0 < max_lines}
    {change : FileChange} :
    ∀ (n : Nat) (remaining : List Line), remaining.length ≤ n →
    ∀ (cs : List DiffChunk) (cur : List FileChange) (cc : Nat), Numbered cs →
      Numbered (chunkLCfile max_lines hmax change remaining cs cur cc).1 := by
  intro n
  induction n with
  | zero =>
    intro remaining hlen cs cur cc hn
    have h0 : remaining = [] := List.length_eq_zero.mp (Nat.le_zero.mp hlen)
    subst h0
    simpa [chunkLCfile] using hn
  | succ n ih =>
    intro remaining hlen cs cur cc hn
    cases remaining with
    | nil => simpa [chunkLCfile] using hn
    | cons l rest =>
      simp only [chunkLCfile]
      split
      · next =>
        apply ih
        · simp only [List.length_drop]
          have h1 : 0 < max_lines.toNat := by omega
          simp only [List.length_cons] at hlen ⊢
          omega
        · split
          · exact hn
          · exact numbered_addChunk hn _ _
      · next hcond =>
        apply ih
        · simp only [List.length_drop]
          have h1 : 0 < (max_lines - (cc : Int)).toNat := by omega
          simp only [List.length_cons] at hlen ⊢
          omega
        · exact hn


theorem numbered_chunkLCgo {max_lines : Int} {hmax : 0 < max_lines} :
    ∀ (changes : List FileChange) (st : List DiffChunk × List FileChange × Nat),
      Numbered st.1 → Numbered (chunkLCgo max_lines hmax changes st).1
  | [], _, h => h
  | change :: rest, st, h =>
    numbered_chunkLCgo rest _
      (numbered_chunkLCfile change.lines.length change.lines (le_refl _)
        st.1 st.2.1 st.2.2 h)

theorem numbered_chunkByLineCount (max_lines : Int) (hmax : 0 < max_lines)
    (changes : List FileChange) :
    Numbered (chunkByLineCount max_lines hmax changes) := by
  unfold chunkByLineCount
  dsimp only []
  split
  · exact numbered_chunkLCgo changes ([], [], 0) numbered_nil
  · exact numbered_addChunk (numbered_chunkLCgo changes ([], [], 0) numbered_nil) _ _

theorem numbered_chunkChanges {max_lines : Int} {pfb : Bool}
    {changes : List FileChange} {cs : List DiffChunk}
    (h : chunkChanges max_lines pfb changes = .ok cs) : Numbered cs := by
  unfold chunkChanges at h
  split at h
  · cases h; exact numbered_nil
  · split at h
    · exact numbered_chunkFB changes [] [] 0 cs numbered_nil h
    · split at h
      · cases h; exact numbered_chunkByLineCount _ _ _
      · split at h
        · cases h; exact numbered_nil
        · exact absurd h (by simp)

/-- C5: the `chunk_number` fields of the sequence returned by
`get_all_chunks` are exactly `1..n` (no gaps, no repeats), every chunk it
returns carries `total_chunks = n`, and any chunk returned by `get_chunk`
carries `total_chunks = n`, where `n` is the number of chunks. -/
theorem c5_numbering (max_lines : Int) (pfb : Bool) (changes : List FileChange)
    (cs : List DiffChunk) (h : chunkChanges max_lines pfb changes = .ok cs) :
    (getAllChunks cs).map (·.chunk_number) = List.range' 1 cs.length ∧
    (∀ c ∈ getAllChunks cs, c.total_chunks = cs.length) ∧
    (∀ n c, getChunk cs n = some c → c.total_chunks = cs.length) := by
  refine ⟨?_, ?_, ?_⟩
  · have hn := numbered_chunkChanges h
    unfold Numbered at hn
    unfold getAllChunks
    rw [List.map_map]
    exact hn
  · intro c hc
    unfold getAllChunks at hc
    obtain ⟨c0, _, heq⟩ := List.mem_map.mp hc
    rw [← heq]
  · intro n c hc
    unfold getChunk at hc
    split at hc
    · cases hget : cs.get? (n - 1).toNat with
      | none => rw [hget] at hc; exact absurd hc (by simp)
      | some c0 =>
        rw [hget] at hc
        cases hc
        rfl
    · exact absurd hc (by simp)

/-- Input for the C5 witness: one small file. -/
def c5Fc : FileChange :=
  { old_path := "w".toList
    new_path := "w".toList
    old_start := 0
    old_count := 0
    new_start := 0
    new_count := 0
    lines := ["diff --git a/w b/w".toList, "+1".toList]
    is_binary := false
    is_new_file := false
    is_deleted_file := false }

/-- The single chunk produced for `c5Fc` at `max_lines = 5`. -/
def c5Chunks : List DiffChunk :=
  [{ chunk_number := 1
     total_chunks := 0
     file_changes := [c5Fc]
     line_count := 2
     file_count := 1
     summary := "Changes to w".toList }]

/-- Witness for `c5_numbering` at a concrete chunked diff. -/
theorem c5_numbering_witness :
    chunkChanges 5 true [c5Fc] = Except.ok c5Chunks ∧
    ((getAllChunks c5Chunks).map (·.chunk_number) = List.range' 1 c5Chunks.length ∧
     (∀ c ∈ getAllChunks c5Chunks, c.total_chunks = c5Chunks.length) ∧
     (∀ n c, getChunk c5Chunks n = some c → c.total_chunks = c5Chunks.length)) :=
  ⟨by rfl, c5_numbering 5 true [c5Fc] c5Chunks (by rfl)⟩

/-! ### Claim C4 — size bound in file-boundary mode -/

/-- The per-file shape of `_split_large_file`'s output (also the
file-boundary chunker's flattened output per file): a file within the
bound is kept whole; an oversized file is replaced by one partial record
per content slice, each carrying the full header set in front of its
slice. -/
def expandFB (max_lines : Int) (change : FileChange) : List FileChange :=
  if (change.lines.length : Int) ≤ max_lines then [change]
  else
    (sliceList (splitSize max_lines change).toNat
        (change.lines.filter (fun l => !(isHeaderLine l)))).map
      (fun sl => { change with lines := change.lines.filter isHeaderLine ++ sl })

/-- The C4 chunk property relative to the original input: the chunk
respects the bound, or it is itself a sub-chunk of an oversized input
file split under the documented fallback-halving case (the file has at
least `max_lines` header lines): a singleton chunk holding one of that
file's partial records — full header set plus one content slice. -/
def ChunkBound (max_lines : Int) (orig : List FileChange) (c : DiffChunk) : Prop :=
  (c.line_count : Int) ≤ max_lines ∨
    ∃ fc, fc ∈ orig ∧ max_lines < (fc.lines.length : Int) ∧
      max_lines ≤ ((fc.lines.filter isHeaderLine).length : Int) ∧
      ∃ p, p ∈ expandFB max_lines fc ∧ c.file_changes = [p] ∧
        c.line_count = p.lines.length

/-- Appending a chunk through `_add_chunk` preserves a property that
holds of all existing chunks and of any chunk with the new line count and
file list. -/
theorem forall_mem_addChunk {P : DiffChunk → Prop} {cs : List DiffChunk}
    {fcs : List FileChange} {n : Nat} (h : ∀ c ∈ cs, P c)
    (hnew : ∀ c : DiffChunk, c.line_count = n → c.file_changes = fcs → P c) :
    ∀ c ∈ addChunk cs fcs n, P c := by
  intro c hc
  unfold addChunk at hc
  rcases List.mem_append.mp hc with h1 | h1
  · exact h c h1
  · simp only [List.mem_singleton] at h1
    subst h1
    exact hnew _ rfl rfl

/-- Folding `_add_chunk` over a list preserves a property that holds for
every produced line count and file list. -/
theorem forall_foldl_addChunk {P : DiffChunk → Prop} {β : Type}
    {f : β → List FileChange} {g : β → Nat} :
    ∀ (xs : List β) (cs : List DiffChunk),
      (∀ x ∈ xs, ∀ c : DiffChunk, c.line_count = g x → c.file_changes = f x → P c) →
      (∀ c ∈ cs, P c) →
      ∀ c ∈ xs.foldl (fun acc x => addChunk acc (f x) (g x)) cs, P c
  | [], _, _, h => h
  | x :: xs, cs, hg, h =>
    forall_foldl_addChunk xs (addChunk cs (f x) (g x))
      (fun y hy => hg y (List.mem_cons_of_mem x hy))
      (forall_mem_addChunk h (hg x (List.mem_cons_self x xs)))

/-- Every slice produced by `sliceListAux` has length at most `k`. -/
theorem sliceListAux_mem_length {k : Nat} :
    ∀ (fuel : Nat) (xs : List Line) (sl : List Line),
      sl ∈ sliceListAux k fuel xs → sl.length ≤ k := by
  intro fuel
  induction fuel with
  | zero => intro xs sl h; simp [sliceListAux] at h
  | succ n ih =>
    intro xs sl h
    cases xs with
    | nil => simp [sliceListAux] at h
    | cons a t =>
      rw [sliceListAux] at h
      · split at h
        · simp at h
        · rcases List.mem_cons.mp h with h1 | h1
          · subst h1; exact List.length_take_le _ _
          · exact ih _ _ h1
      · simp

/-- `_split_large_file` only emits chunks satisfying the C4 bound. -/
theorem splitLargeFile_bound {max_lines : Int} {orig : List FileChange}
    {cs cs' : List DiffChunk} {change : FileChange}
    (h : splitLargeFile max_lines cs change = .ok cs')
    (horig : change ∈ orig) (hover : max_lines < (change.lines.length : Int))
    (hcs : ∀ c ∈ cs, ChunkBound max_lines orig c) :
    ∀ c ∈ cs', ChunkBound max_lines orig c := by
  unfold splitLargeFile at h
  dsimp only [] at h
  split at h
  · exact absurd h (by simp)
  · split at h
    · cases h; exact hcs
    · next hzero hneg =>
      cases h
      apply forall_foldl_addChunk _ _ _ hcs
      intro sl hsl c hlc hfcs
      have hlen : sl.length ≤ (splitSize max_lines change).toNat :=
        sliceListAux_mem_length _ _ _ hsl
      unfold ChunkBound
      by_cases hfall :
          max_lines - ((change.lines.filter isHeaderLine).length : Int) ≤ 0
      · refine Or.inr ⟨change, horig, hover, by omega,
          { change with lines := change.lines.filter isHeaderLine ++ sl },
          ?_, ?_, ?_⟩
        · unfold expandFB
          rw [if_neg (by omega)]
          exact List.mem_map_of_mem _ hsl
        · exact hfcs
        · simpa using hlc
      · left
        rw [hlc]
        have hsz : splitSize max_lines change =
            max_lines - ((change.lines.filter isHeaderLine).length : Int) := by
          unfold splitSize
          rw [if_neg hfall]
        rw [hsz] at hlen
        simp only [List.length_append]
        push_cast
        omega

/-- The file loop of `_chunk_by_file_boundaries` keeps every finalized
chunk within the C4 bound, given the pending-buffer invariants. -/
theorem chunkFB_bound {max_lines : Int} (hmax : 0 < max_lines)
    (orig : List FileChange) :
    ∀ (rest : List FileChange) (cs : List DiffChunk) (cur : List FileChange)
      (cc : Nat) (out : List DiffChunk),
      (∀ fc ∈ rest, fc ∈ orig) →
      ((cc : Int) ≤ max_lines) →
      (cur.isEmpty = true → cc = 0) →
      (∀ c ∈ cs, ChunkBound max_lines orig c) →
      chunkFB max_lines rest cs cur cc = .ok out →
      ∀ c ∈ out, ChunkBound max_lines orig c := by
  intro rest
  induction rest with
  | nil =>
    intro cs cur cc out _ hcc _ hcs h
    rw [chunkFB] at h
    cases h
    split
    · exact hcs
    · exact forall_mem_addChunk hcs (fun c hlc _ => Or.inl (by rw [hlc]; exact hcc))
  | cons change rest ih =>
    intro cs cur cc out hrest hcc hcur hcs h
    have horig : change ∈ orig := hrest change (List.mem_cons_self _ _)
    have hrest' : ∀ fc ∈ rest, fc ∈ orig :=
      fun fc hfc => hrest fc (List.mem_cons_of_mem _ hfc)
    rw [chunkFB] at h
    dsimp only [] at h
    rw [flushPending] at h
    by_cases hfp : (max_lines < (cc + change.lines.length : Int)) ∧ ¬ cur.isEmpty
    · rw [if_pos hfp] at h
      have hcs1 : ∀ c ∈ addChunk cs cur cc, ChunkBound max_lines orig c :=
        forall_mem_addChunk hcs (fun c hlc _ => Or.inl (by rw [hlc]; exact hcc))
      by_cases hbig : max_lines < (change.lines.length : Int)
      · rw [if_pos hbig] at h
        rw [show flushAll (addChunk cs cur cc) [] 0 = (addChunk cs cur cc, [], 0) by
          simp [flushAll]] at h
        cases hsp : splitLargeFile max_lines (addChunk cs cur cc) change with
        | error e => rw [hsp] at h; exact absurd h (by simp)
        | ok chunks' =>
          rw [hsp] at h
          exact ih _ _ _ _ hrest' (by omega) (fun _ => rfl)
            (splitLargeFile_bound hsp horig hbig hcs1) h
      · rw [if_neg hbig] at h
        exact ih _ _ _ _ hrest' (by push_cast; omega) (by simp)
          hcs1 h
    · rw [if_neg hfp] at h
      by_cases hbig : max_lines < (change.lines.length : Int)
      · rw [if_pos hbig] at h
        by_cases hne : cur.isEmpty
        · rw [show flushAll cs cur cc = (cs, cur, cc) by
            simp [flushAll, hne]] at h
          cases hsp : splitLargeFile max_lines cs change with
          | error e => rw [hsp] at h; exact absurd h (by simp)
          | ok chunks' =>
            rw [hsp] at h
            exact ih _ _ _ _ hrest' hcc hcur
              (splitLargeFile_bound hsp horig hbig hcs) h
        · rw [show flushAll cs cur cc = (addChunk cs cur cc, [], 0) by
            simp [flushAll, hne]] at h
          have hcs1 : ∀ c ∈ addChunk cs cur cc, ChunkBound max_lines orig c :=
            forall_mem_addChunk hcs (fun c hlc _ => Or.inl (by rw [hlc]; exact hcc))
          cases hsp : splitLargeFile max_lines (addChunk cs cur cc) change with
          | error e => rw [hsp] at h; exact absurd h (by simp)
          | ok chunks' =>
            rw [hsp] at h
            exact ih _ _ _ _ hrest' (by omega) (fun _ => rfl)
              (splitLargeFile_bound hsp horig hbig hcs1) h
      · rw [if_neg hbig] at h
        have hcc' : ((cc + change.lines.length : Nat) : Int) ≤ max_lines := by
          by_cases hne : cur.isEmpty
          · have := hcur hne
            subst this
            push_cast
            omega
          · have : ¬ max_lines < (cc + change.lines.length : Int) := by
              intro hlt
              exact hfp ⟨hlt, hne⟩
            push_cast at this ⊢
            omega
        exact ih _ _ _ _ hrest' hcc' (by simp) hcs h

/-- C4: in file-boundary mode with positive `max_lines`, every produced
chunk satisfies `line_count ≤ max_lines`, with the sole exception of a
chunk that is itself a sub-chunk of an oversized input file split under
the documented `max_lines // 2` fallback (the file has at least
`max_lines` header lines): such a chunk is a singleton holding one of
that file's partial records — the full header set plus one content
slice — and its `line_count` is that record's length. -/
theorem c4_size_bound (max_lines : Int) (hmax : 0 < max_lines)
    (changes : List FileChange) (cs : List DiffChunk)
    (h : chunkChanges max_lines true changes = .ok cs) :
    ∀ c ∈ cs, (c.line_count : Int) ≤ max_lines ∨
      ∃ fc, fc ∈ changes ∧ max_lines < (fc.lines.length : Int) ∧
        max_lines ≤ ((fc.lines.filter isHeaderLine).length : Int) ∧
        ∃ p, p ∈ expandFB max_lines fc ∧ c.file_changes = [p] ∧
          c.line_count = p.lines.length := by
  unfold chunkChanges at h
  split at h
  · cases h
    intro c hc
    simp at hc
  · rw [if_pos rfl] at h
    exact chunkFB_bound hmax changes changes [] [] 0 cs (fun _ hx => hx)
      (by simp; omega) (fun _ => rfl) (by simp) h

/-- Input file for the C4 witness. -/
def c4Fc : FileChange :=
  { old_path := "q".toList
    new_path := "q".toList
    old_start := 0
    old_count := 0
    new_start := 0
    new_count := 0
    lines := ["diff --git a/q b/q".toList, "+1".toList, "+2".toList]
    is_binary := false
    is_new_file := false
    is_deleted_file := false }

/-- The chunks produced for `c4Fc` at `max_lines = 4`. -/
def c4Chunks : List DiffChunk :=
  [{ chunk_number := 1
     total_chunks := 0
     file_changes := [c4Fc]
     line_count := 3
     file_count := 1
     summary := "Changes to q".toList }]

/-- Witness for `c4_size_bound` at a concrete input. -/
theorem c4_size_bound_witness :
    (0 : Int) < 4 ∧ chunkChanges 4 true [c4Fc] = Except.ok c4Chunks ∧
    (∀ c ∈ c4Chunks, (c.line_count : Int) ≤ 4 ∨
      ∃ fc, fc ∈ [c4Fc] ∧ (4 : Int) < (fc.lines.length : Int) ∧
        (4 : Int) ≤ ((fc.lines.filter isHeaderLine).length : Int) ∧
        ∃ p, p ∈ expandFB 4 fc ∧ c.file_changes = [p] ∧
          c.line_count = p.lines.length) :=
  ⟨by decide, by rfl, c4_size_bound 4 (by decide) [c4Fc] c4Chunks (by rfl)⟩

/-! ### Claim C3 — partition coverage in file-boundary mode -/

theorem flatMap_addChunk (cs : List DiffChunk) (fcs : List FileChange) (n : Nat) :
    (addChunk cs fcs n).flatMap (·.file_changes) =
      cs.flatMap (·.file_changes) ++ fcs := by
  simp [addChunk]

theorem flatMap_singleton_eq_map {α β : Type} (u : α → β) (xs : List α) :
    xs.flatMap (fun x => [u x]) = xs.map u := by
  induction xs <;> simp [*]

theorem flatMap_foldl_addChunk {β : Type} (f : β → List FileChange) (g : β → Nat) :
    ∀ (xs : List β) (cs : List DiffChunk),
      ((xs.foldl (fun acc x => addChunk acc (f x) (g x)) cs).flatMap (·.file_changes)) =
        cs.flatMap (·.file_changes) ++ xs.flatMap f := by
  intro xs
  induction xs with
  | nil => intro cs; simp
  | cons x xs ih =>
    intro cs
    simp only [List.foldl_cons, List.flatMap_cons]
    rw [ih, flatMap_addChunk]
    simp [List.append_assoc]

theorem sliceList_zero (xs : List Line) : sliceList 0 xs = [] := by
  cases xs with
  | nil => rfl
  | cons a t => rfl

theorem sliceListAux_flatten {k : Nat} (hk : k ≠ 0) :
    ∀ (fuel : Nat) (xs : List Line), xs.length ≤ fuel →
      (sliceListAux k fuel xs).flatten = xs := by
  intro fuel
  induction fuel with
  | zero =>
    intro xs hlen
    have h0 : xs = [] := List.length_eq_zero.mp (Nat.le_zero.mp hlen)
    subst h0; rfl
  | succ n ih =>
    intro xs hlen
    cases xs with
    | nil => rfl
    | cons a t =>
      rw [sliceListAux]
      · rw [if_neg hk]
        simp only [List.flatten_cons]
        rw [ih ((a :: t).drop k) (by simp at hlen ⊢; omega)]
        exact List.take_append_drop _ _
      · simp

/-- If `_split_large_file` returned normally, its slice size was not the
zero that raises `ValueError`. -/
theorem splitLargeFile_ok_size {max_lines : Int} {cs cs' : List DiffChunk}
    {change : FileChange} (h : splitLargeFile max_lines cs change = .ok cs') :
    splitSize max_lines change ≠ 0 := by
  intro he
  unfold splitLargeFile at h
  dsimp only [] at h
  rw [if_pos he] at h
  exact absurd h (by simp)

/-- Flattened output of `_split_large_file` on success. -/
theorem splitLargeFile_flatMap {max_lines : Int} {cs cs' : List DiffChunk}
    {change : FileChange} (h : splitLargeFile max_lines cs change = .ok cs')
    (hover : max_lines < (change.lines.length : Int)) :
    cs'.flatMap (·.file_changes) =
      cs.flatMap (·.file_changes) ++ expandFB max_lines change := by
  have hexp : expandFB max_lines change =
      (sliceList (splitSize max_lines change).toNat
        (change.lines.filter (fun l => !(isHeaderLine l)))).map
      (fun sl => { change with lines := change.lines.filter isHeaderLine ++ sl }) := by
    unfold expandFB
    rw [if_neg (by omega)]
  unfold splitLargeFile at h
  dsimp only [] at h
  split at h
  · exact absurd h (by simp)
  · split at h
    · next hzero hneg =>
      cases h
      have htn : (splitSize max_lines change).toNat = 0 := by omega
      rw [hexp, htn, sliceList_zero]
      simp
    · cases h
      rw [flatMap_foldl_addChunk, hexp, flatMap_singleton_eq_map]

/-- Flattened output of the file loop of `_chunk_by_file_boundaries`. -/
theorem chunkFB_flatMap {max_lines : Int} :
    ∀ (rest : List FileChange) (cs : List DiffChunk) (cur : List FileChange)
      (cc : Nat) (out : List DiffChunk),
      chunkFB max_lines rest cs cur cc = .ok out →
      out.flatMap (·.file_changes) =
        cs.flatMap (·.file_changes) ++ cur ++ rest.flatMap (expandFB max_lines) := by
  intro rest
  induction rest with
  | nil =>
    intro cs cur cc out h
    rw [chunkFB] at h
    cases h
    split
    · next hemp =>
      simp [List.isEmpty_iff.mp hemp]
    · rw [flatMap_addChunk]
      simp
  | cons change rest ih =>
    intro cs cur cc out h
    rw [chunkFB] at h
    dsimp only [] at h
    rw [flushPending] at h
    by_cases hfp : (max_lines < (cc + change.lines.length : Int)) ∧ ¬ cur.isEmpty
    · rw [if_pos hfp] at h
      by_cases hbig : max_lines < (change.lines.length : Int)
      · rw [if_pos hbig] at h
        rw [show flushAll (addChunk cs cur cc) [] 0 = (addChunk cs cur cc, [], 0) from by
          simp [flushAll]] at h
        cases hsp : splitLargeFile max_lines (addChunk cs cur cc) change with
        | error e => rw [hsp] at h; exact absurd h (by simp)
        | ok chunks' =>
          rw [hsp] at h
          rw [ih _ _ _ _ h, splitLargeFile_flatMap hsp hbig, flatMap_addChunk]
          simp [List.append_assoc]
      · rw [if_neg hbig] at h
        rw [ih _ _ _ _ h, flatMap_addChunk]
        have : expandFB max_lines change = [change] := by
          unfold expandFB
          rw [if_pos (by omega)]
        simp [this, List.append_assoc]
    · rw [if_neg hfp] at h
      by_cases hbig : max_lines < (change.lines.length : Int)
      · rw [if_pos hbig] at h
        by_cases hne : cur.isEmpty
        · rw [show flushAll cs cur cc = (cs, cur, cc) from by simp [flushAll, hne]] at h
          cases hsp : splitLargeFile max_lines cs change with
          | error e => rw [hsp] at h; exact absurd h (by simp)
          | ok chunks' =>
            rw [hsp] at h
            rw [ih _ _ _ _ h, splitLargeFile_flatMap hsp hbig]
            simp [List.isEmpty_iff.mp hne, List.append_assoc]
        · rw [show flushAll cs cur cc = (addChunk cs cur cc, [], 0) from by
            simp [flushAll, hne]] at h
          cases hsp : splitLargeFile max_lines (addChunk cs cur cc) change with
          | error e => rw [hsp] at h; exact absurd h (by simp)
          | ok chunks' =>
            rw [hsp] at h
            rw [ih _ _ _ _ h, splitLargeFile_flatMap hsp hbig, flatMap_addChunk]
            simp [List.append_assoc]
      · rw [if_neg hbig] at h
        rw [ih _ _ _ _ h]
        have : expandFB max_lines change = [change] := by
          unfold expandFB
          rw [if_pos (by omega)]
        simp [this, List.append_assoc]

/-- If the file loop returned normally, no oversized file hit the zero
slice size. -/
theorem chunkFB_ok_splitSize {max_lines : Int} :
    ∀ (rest : List FileChange) (cs : List DiffChunk) (cur : List FileChange)
      (cc : Nat) (out : List DiffChunk),
      chunkFB max_lines rest cs cur cc = .ok out →
      ∀ fc ∈ rest, max_lines < (fc.lines.length : Int) →
        splitSize max_lines fc ≠ 0 := by
  intro rest
  induction rest with
  | nil => intro cs cur cc out _ fc hfc; simp at hfc
  | cons change rest ih =>
    intro cs cur cc out h fc hfc hover
    rw [chunkFB] at h
    dsimp only [] at h
    rcases List.mem_cons.mp hfc with h1 | h1
    · subst h1
      rw [if_pos hover] at h
      cases hsp : splitLargeFile max_lines
          (flushAll (flushPending max_lines fc.lines.length cs cur cc).1
            (flushPending max_lines fc.lines.length cs cur cc).2.1
            (flushPending max_lines fc.lines.length cs cur cc).2.2).1 fc with
      | error e => rw [hsp] at h; exact absurd h (by simp)
      | ok chunks' => exact splitLargeFile_ok_size hsp
    · split at h
      · cases hsp : splitLargeFile max_lines
            (flushAll (flushPending max_lines change.lines.length cs cur cc).1
              (flushPending max_lines change.lines.length cs cur cc).2.1
              (flushPending max_lines change.lines.length cs cur cc).2.2).1 change with
        | error e => rw [hsp] at h; exact absurd h (by simp)
        | ok chunks' =>
          rw [hsp] at h
          exact ih _ _ _ _ h fc h1 hover
      · exact ih _ _ _ _ h fc h1 hover

/-- C3 amended: in file-boundary mode with positive `max_lines`, whenever
`chunk_changes` returns normally, the concatenation of the chunks'
`file_changes` equals the input list with every within-bound file kept
unchanged (hence appearing in exactly one chunk, in order) and every
oversized file replaced by its sub-records, each consisting of the full
header set followed by one content slice; and the content slices of every
oversized file concatenate back to exactly its content lines (no gap, no
duplication, original order).  The claim as stated fails only where the
splitter raises instead of returning (see `c3_counterexample`). -/
theorem c3_partition (max_lines : Int) (hmax : 0 < max_lines)
    (changes : List FileChange) (cs : List DiffChunk)
    (h : chunkChanges max_lines true changes = .ok cs) :
    cs.flatMap (·.file_changes) = changes.flatMap (expandFB max_lines) ∧
    ∀ fc ∈ changes, max_lines < (fc.lines.length : Int) →
      (sliceList (splitSize max_lines fc).toNat
          (fc.lines.filter (fun l => !(isHeaderLine l)))).flatten =
        fc.lines.filter (fun l => !(isHeaderLine l)) := by
  unfold chunkChanges at h
  split at h
  · next hemp =>
    cases h
    rw [List.isEmpty_iff.mp hemp]
    exact ⟨rfl, by simp⟩
  · rw [if_pos rfl] at h
    constructor
    · have := chunkFB_flatMap changes [] [] 0 cs h
      simpa using this
    · intro fc hfc hover
      have hnz : splitSize max_lines fc ≠ 0 :=
        chunkFB_ok_splitSize changes [] [] 0 cs h fc hfc hover
      have hpos : 0 < splitSize max_lines fc := by
        unfold splitSize at hnz ⊢
        dsimp only [] at hnz ⊢
        split at hnz
        · have : 0 ≤ Int.fdiv max_lines 2 := Int.fdiv_nonneg (by omega) (by omega)
          omega
        · omega
      have htn : (splitSize max_lines fc).toNat ≠ 0 := by omega
      exact sliceListAux_flatten htn _ _ (le_refl _)

/-- Input file for the C3 counterexample: oversized for `max_lines = 1`
with one header line, so the fallback slice size is `1 // 2 = 0`. -/
def c3Fc : FileChange :=
  { old_path := "x".toList
    new_path := "x".toList
    old_start := 0
    old_count := 0
    new_start := 0
    new_count := 0
    lines := ["diff --git a/x b/x".toList, "+x".toList]
    is_binary := false
    is_new_file := false
    is_deleted_file := false }

/-- C3 counterexample: at `max_lines = 1` (a positive bound) the claim
requires the oversized file `c3Fc` to be split into sub-chunks carrying
its header and its content lines; instead `chunk_changes` raises
`ValueError` from `range(0, len(content), 0)` and produces no chunks at
all, so the file appears in no output chunk. -/
theorem c3_counterexample :
    chunkChanges 1 true [c3Fc] =
      Except.error "range() arg 3 must not be zero" := by
  rfl

/-- Input files for the C3 witness: one small file and one oversized
file (5 lines, 1 header line, `max_lines = 3`, slice size 2). -/
def c3SmallFc : FileChange :=
  { old_path := "s".toList
    new_path := "s".toList
    old_start := 0
    old_count := 0
    new_start := 0
    new_count := 0
    lines := ["diff --git a/s b/s".toList]
    is_binary := false
    is_new_file := false
    is_deleted_file := false }

def c3BigFc : FileChange :=
  { old_path := "b".toList
    new_path := "b".toList
    old_start := 0
    old_count := 0
    new_start := 0
    new_count := 0
    lines := ["diff --git a/b b/b".toList, "+1".toList, "+2".toList,
              "+3".toList, "+4".toList]
    is_binary := false
    is_new_file := false
    is_deleted_file := false }

/-- Witness for `c3_partition` at a concrete oversized input. -/
theorem c3_partition_witness :
    (0 : Int) < 3 ∧
    (∃ cs, chunkChanges 3 true [c3SmallFc, c3BigFc] = Except.ok cs ∧
      (cs.flatMap (·.file_changes) =
          [c3SmallFc, c3BigFc].flatMap (expandFB 3) ∧
       ∀ fc ∈ [c3SmallFc, c3BigFc], (3 : Int) < (fc.lines.length : Int) →
        (sliceList (splitSize 3 fc).toNat
            (fc.lines.filter (fun l => !(isHeaderLine l)))).flatten =
          fc.lines.filter (fun l => !(isHeaderLine l)))) := by
  refine ⟨by decide, (chunkChanges 3 true [c3SmallFc, c3BigFc]).toOption.getD [], by rfl, ?_⟩
  exact c3_partition 3 (by decide) [c3SmallFc, c3BigFc] _ (by rfl)

/-! ### Claim C8 — the parser always terminates and never raises -/

/-- Two adjacent `diff --git` headers, as read by `readlines`. -/
def adjacentHeaders : List Line :=
  ["diff --git a/a b/a\n".toList, "diff --git a/b b/b\n".toList]

/-- The `FileChange` that `_parse_file_change` builds, over and over, for
the first file of `adjacentHeaders` (the second header line is appended
to its `lines` before the loop backs up). -/
def adjacentFc : FileChange :=
  { old_path := "a".toList
    new_path := "a".toList
    old_start := 0
    old_count := 0
    new_start := 0
    new_count := 0
    lines := ["diff --git a/a b/a".toList, "diff --git a/b b/b".toList]
    is_binary := false
    is_new_file := false
    is_deleted_file := false }

/-- C8: on `adjacentHeaders` the parser does not terminate.
`_parse_file_change` backs up (`i -= 1`) to the first header's own index,
so `parse_stream` re-parses the first file forever; the fuelled embedding
returns `none` for every amount of fuel. -/
theorem c8_parse_diverges_on_adjacent_headers :
    parse adjacentHeaders = none ∧
    ∀ (fuel : Nat) (acc : List FileChange),
      parseLoopAux fuel acc adjacentHeaders = none := by
  have key : ∀ (fuel : Nat) (acc : List FileChange),
      parseLoopAux fuel acc adjacentHeaders = none := by
    intro fuel
    induction fuel with
    | zero => intro acc; rfl
    | succ n ih =>
      intro acc
      have step : parseLoopAux (n + 1) acc adjacentHeaders =
          parseLoopAux n (acc ++ [adjacentFc]) adjacentHeaders := rfl
      rw [step]
      exact ih _

  exact ⟨key _ _, key⟩

/-! ### Claim C1 — faithful reconstruction of each file section -/

/-- `sub` occurs as a contiguous slice of `big`. -/
def isSlice (sub big : List Line) : Bool :=
  (List.range (big.length + 1)).any (fun i => (big.drop i).take sub.length == sub)

/-- One minimal well-formed file section, as read by `readlines`. -/
def c1Input : List Line :=
  ["diff --git a/x b/x\n".toList, "@@ -1 +1 @@\n".toList, "+a\n".toList]

/-- The `FileChange` the parser produces for `c1Input`: the hunk header
line appears twice (once appended by the metadata loop, once again by
`_parse_hunks`, which restarts at the same index). -/
def c1Fc : FileChange :=
  { old_path := "x".toList
    new_path := "x".toList
    old_start := 1
    old_count := 1
    new_start := 1
    new_count := 1
    lines := ["diff --git a/x b/x".toList, "@@ -1 +1 @@".toList,
              "@@ -1 +1 @@".toList, "+a".toList]
    is_binary := false
    is_new_file := false
    is_deleted_file := false }

/-- C1 counterexample: for the minimal one-hunk diff `c1Input` the parser
produces a `FileChange` whose `lines` duplicate the first hunk header, so
concatenating them does not reproduce any contiguous section of the
(normalized) input — the claim fails on virtually every diff containing a
hunk. -/
theorem c1_counterexample :
    parse c1Input = some [c1Fc] ∧
      isSlice c1Fc.lines (c1Input.map rstrip) = false := by
  constructor
  · rfl
  · rfl

/-! ### Parser lemmas: which matcher can fire on which line -/

theorem not_pre_of_shorter {p q s : Line} (hqs : q.isPrefixOf s = true)
    (hlen : p.length ≤ q.length) (hnot : p.isPrefixOf q = false) :
    p.isPrefixOf s = false := by
  cases hps : p.isPrefixOf s with
  | false => rfl
  | true => exact absurd (pre_conflict hps hqs hlen) (by simp [hnot])

theorem not_pre_of_longer {p q s : Line} (hqs : q.isPrefixOf s = true)
    (hlen : q.length ≤ p.length) (hnot : q.isPrefixOf p = false) :
    p.isPrefixOf s = false := by
  cases hps : p.isPrefixOf s with
  | false => rfl
  | true => exact absurd (pre_conflict hqs hps hlen) (by simp [hnot])

/-- A line matched by `FILE_HEADER_PATTERN` begins with `diff --git a/`. -/
theorem fileHeaderMatch_pre {l : Line} {g : Line × Line}
    (h : fileHeaderMatch l = some g) :
    ("diff --git a/".toList).isPrefixOf (chompNl l) = true := by
  unfold fileHeaderMatch at h
  dsimp only [] at h
  split at h
  · exact absurd h (by simp)
  · split at h
    · next hpre => exact hpre
    · exact absurd h (by simp)

/-- A line matched by `HUNK_HEADER_PATTERN` begins with `@@ -`. -/
theorem hunkMatch_pre {l : Line} {g : Nat × Option Nat × Nat × Option Nat}
    (h : hunkMatch l = some g) :
    ("@@ -".toList).isPrefixOf (chompNl l) = true := by
  unfold hunkMatch at h
  dsimp only [] at h
  split at h
  · next hpre => exact hpre
  · exact absurd h (by simp)

/-- A line beginning with `diff --git a/` is rejected by every other
matcher of the metadata loop. -/
theorem headerLine_facts {s : Line} (hs : chompNl s = s)
    (hq : ("diff --git a/".toList).isPrefixOf s = true) :
    binaryMatch s = false ∧ newModeMatch s = false ∧ delModeMatch s = false ∧
    oldFileMatch s = false ∧ newFileMatch s = false ∧ hunkMatch s = none ∧
    ("diff --git".toList).isPrefixOf s = true := by
  refine ⟨?_, ?_, ?_, ?_, ?_, ?_, ?_⟩
  · unfold binaryMatch
    dsimp only []
    rw [hs,
      @not_pre_of_shorter ("Binary files ".toList) ("diff --git a/".toList) s hq
        (by decide) (by decide),
      @not_pre_of_shorter ("Binary file ".toList) ("diff --git a/".toList) s hq
        (by decide) (by decide)]
    simp
  · unfold newModeMatch
    dsimp only []
    rw [hs,
      @not_pre_of_longer ("new file mode ".toList) ("diff --git a/".toList) s hq
        (by decide) (by decide)]
    simp
  · unfold delModeMatch
    dsimp only []
    rw [hs,
      @not_pre_of_longer ("deleted file mode ".toList) ("diff --git a/".toList) s hq
        (by decide) (by decide)]
    simp
  · unfold oldFileMatch
    dsimp only []
    rw [hs,
      @not_pre_of_shorter ("--- ".toList) ("diff --git a/".toList) s hq
        (by decide) (by decide)]
    simp
  · unfold newFileMatch
    dsimp only []
    rw [hs,
      @not_pre_of_shorter ("+++ ".toList) ("diff --git a/".toList) s hq
        (by decide) (by decide)]
    simp
  · unfold hunkMatch
    dsimp only []
    rw [hs,
      @not_pre_of_shorter ("@@ -".toList) ("diff --git a/".toList) s hq
        (by decide) (by decide)]
    simp
  · exact prefixOf_trans (by decide) hq

/-- A line beginning with `@@ -` is rejected by every metadata matcher
that precedes the hunk test, and is not a `diff --git` line. -/
theorem hunkLine_facts {s : Line} (hs : chompNl s = s)
    (hq : ("@@ -".toList).isPrefixOf s = true) :
    binaryMatch s = false ∧ newModeMatch s = false ∧ delModeMatch s = false ∧
    oldFileMatch s = false ∧ newFileMatch s = false ∧
    ("diff --git".toList).isPrefixOf s = false := by
  refine ⟨?_, ?_, ?_, ?_, ?_, ?_⟩
  · unfold binaryMatch
    dsimp only []
    rw [hs,
      @not_pre_of_longer ("Binary files ".toList) ("@@ -".toList) s hq
        (by decide) (by decide),
      @not_pre_of_longer ("Binary file ".toList) ("@@ -".toList) s hq
        (by decide) (by decide)]
    simp
  · unfold newModeMatch
    dsimp only []
    rw [hs,
      @not_pre_of_longer ("new file mode ".toList) ("@@ -".toList) s hq
        (by decide) (by decide)]
    simp
  · unfold delModeMatch
    dsimp only []
    rw [hs,
      @not_pre_of_longer ("deleted file mode ".toList) ("@@ -".toList) s hq
        (by decide) (by decide)]
    simp
  · unfold oldFileMatch
    dsimp only []
    rw [hs,
      @not_pre_of_longer ("--- ".toList) ("@@ -".toList) s hq
        (by decide) (by decide)]
    simp
  · unfold newFileMatch
    dsimp only []
    rw [hs,
      @not_pre_of_longer ("+++ ".toList) ("@@ -".toList) s hq
        (by decide) (by decide)]
    simp
  · exact @not_pre_of_longer ("diff --git".toList) ("@@ -".toList) s hq
      (by decide) (by decide)

/-- A line that does not begin with `diff --git` is not a file header. -/
theorem fileHeaderMatch_none_of_not_pre {l : Line}
    (h : ("diff --git".toList).isPrefixOf (rstrip l) = false) :
    fileHeaderMatch (rstrip l) = none := by
  unfold fileHeaderMatch
  dsimp only []
  rw [chompNl_rstrip]
  split
  · rfl
  · have hp : ("diff --git a/".toList).isPrefixOf (rstrip l) = false := by
      cases hps : ("diff --git a/".toList).isPrefixOf (rstrip l) with
      | false => rfl
      | true =>
        exact absurd
          (@prefixOf_trans ("diff --git".toList) ("diff --git a/".toList)
            (rstrip l) (by decide) hps)
          (by rw [h]; simp)
    rw [hp]
    simp

/-- The inner hunk loop consumes exactly the maximal prefix of
content-marked lines. -/
theorem hunkContent_eq (xs : List Line) :
    hunkContent xs =
      (xs.dropWhile (fun x => isHunkContentLine (rstrip x)),
       (xs.takeWhile (fun x => isHunkContentLine (rstrip x))).map rstrip) := by
  induction xs with
  | nil => rfl
  | cons l rest ih =>
    by_cases hc : isHunkContentLine (rstrip l) = true
    · simp [hunkContent, hc, ih, List.takeWhile_cons, List.dropWhile_cons]
    · simp only [Bool.not_eq_true] at hc
      simp [hunkContent, hc, List.takeWhile_cons, List.dropWhile_cons]

/-- A hunk header is not a content line (it starts with `@`). -/
theorem hunk_not_content {s : Line}
    (h : (hunkMatch s).isSome = true) : isHunkContentLine s = false := by
  rw [Option.isSome_iff_exists] at h
  obtain ⟨g, hg⟩ := h
  have hpre := hunkMatch_pre hg
  cases s with
  | nil => rfl
  | cons c t =>
    rcases chompNl_cases (c :: t) with hch | ⟨u, hu, hch⟩
    · rw [hch] at hpre
      have : c = '@' := by
        cases hx : ("@@ -".toList).isPrefixOf (c :: t) with
        | false => rw [hx] at hpre; cases hpre
        | true =>
          simp only [List.isPrefixOf_iff_prefix] at hx
          obtain ⟨u', hu'⟩ := hx
          have := congrArg (List.head?) hu'
          simpa using this.symm
      subst this
      rfl
    · rw [hch] at hpre
      cases u with
      | nil => simp at hpre
      | cons c' t' =>
        have hc : c = c' := by
          have := congrArg List.head? hu
          simpa using this
      /- the chomped string still starts with the same first character -/
        have : c' = '@' := by
          cases hx : ("@@ -".toList).isPrefixOf (c' :: t') with
          | false => rw [hx] at hpre; cases hpre
          | true =>
            simp only [List.isPrefixOf_iff_prefix] at hx
            obtain ⟨u', hu'⟩ := hx
            have := congrArg (List.head?) hu'
            simpa using this.symm
        subst this
        rw [hc]
        rfl

/-- Outer hunk loop: if every line is a content line or a hunk header and
the list starts with a hunk header (or is empty), the loop consumes the
whole list and appends every line, normalized. -/
theorem parseHunksAux_all :
    ∀ (fuel : Nat) (xs : List Line), xs.length ≤ fuel →
      (∀ x ∈ xs, isHunkContentLine (rstrip x) = true ∨
        (hunkMatch (rstrip x)).isSome = true) →
      (xs = [] ∨ ∃ y ys, xs = y :: ys ∧ (hunkMatch (rstrip y)).isSome = true) →
      parseHunksAux fuel xs = ([], xs.map rstrip) := by
  intro fuel
  induction fuel with
  | zero =>
    intro xs hlen _ _
    have h0 : xs = [] := List.length_eq_zero.mp (Nat.le_zero.mp hlen)
    subst h0; rfl
  | succ n ih =>
    intro xs hlen hall hhd
    rcases hhd with rfl | ⟨y, ys, rfl, hy⟩
    · rfl
    · rw [parseHunksAux]
      rw [if_pos hy, hunkContent_eq]
      have hsub : ∀ x ∈ ys.dropWhile (fun x => isHunkContentLine (rstrip x)), x ∈ y :: ys :=
        fun x hx =>
          List.mem_cons_of_mem _ ((List.dropWhile_sublist _).subset hx)
      have hrec : parseHunksAux n (ys.dropWhile (fun x => isHunkContentLine (rstrip x))) =
          ([], (ys.dropWhile (fun x => isHunkContentLine (rstrip x))).map rstrip) := by
        apply ih
        · calc (ys.dropWhile (fun x => isHunkContentLine (rstrip x))).length
              ≤ ys.length := (List.dropWhile_sublist _).length_le
            _ ≤ n := by simp at hlen; omega
        · exact fun x hx => hall x (hsub x hx)
        · cases hd : ys.dropWhile (fun x => isHunkContentLine (rstrip x)) with
          | nil => exact Or.inl rfl
          | cons z zs =>
            refine Or.inr ⟨z, zs, rfl, ?_⟩
            have hz : isHunkContentLine (rstrip z) = false :=
              dropWhile_head_false (fun x => isHunkContentLine (rstrip x)) ys z zs hd
            rcases hall z (hsub z (by rw [hd]; exact List.mem_cons_self _ _)) with h1 | h1
            · rw [hz] at h1; cases h1
            · exact h1
      dsimp only []
      rw [hrec]
      simp only [List.map_cons]
      rw [← List.map_append, List.takeWhile_append_dropWhile]

/-- One metadata-loop step on a plain metadata line (not binary, not a
hunk header, not a `diff --git` line): the line is appended, normalized,
and the loop continues with `prev` advanced to it; only the two mode
flags may change. -/
theorem parseMeta_meta_step (prev : Line) (a b : Bool) (l : Line)
    (rest : List Line)
    (h1 : binaryMatch (rstrip l) = false) (h2 : hunkMatch (rstrip l) = none)
    (h3 : ("diff --git".toList).isPrefixOf (rstrip l) = false) :
    ∃ a' b', parseMeta prev a b (l :: rest) =
      { rem := (parseMeta l a' b' rest).rem
        body := rstrip l :: (parseMeta l a' b' rest).body
        is_binary := (parseMeta l a' b' rest).is_binary
        is_new_file := (parseMeta l a' b' rest).is_new_file
        is_deleted_file := (parseMeta l a' b' rest).is_deleted_file } := by
  by_cases h4 : newModeMatch (rstrip l) = true
  · exact ⟨true, b, by simp [parseMeta, h1, h2, h3, h4]⟩
  · simp only [Bool.not_eq_true] at h4
    by_cases h5 : delModeMatch (rstrip l) = true
    · exact ⟨a, true, by simp [parseMeta, h1, h2, h3, h4, h5]⟩
    · simp only [Bool.not_eq_true] at h5
      by_cases h6 : oldFileMatch (rstrip l) = true
      · exact ⟨a, b, by simp [parseMeta, h1, h2, h3, h4, h5, h6]⟩
      · simp only [Bool.not_eq_true] at h6
        by_cases h7 : newFileMatch (rstrip l) = true
        · exact ⟨a, b, by simp [parseMeta, h1, h2, h3, h4, h5, h6, h7]⟩
        · simp only [Bool.not_eq_true] at h7
          refine ⟨a, b, ?_⟩
          simp [parseMeta, h1, h2, h4, h5, h6, h7]
          intro hc
          have hx : ("diff --git".toList).isPrefixOf (rstrip l) = true :=
            List.isPrefixOf_iff_prefix.mpr hc
          rw [h3] at hx
          cases hx

/-- Walking a block of plain metadata lines prepends their normalized
forms to the body and advances `prev` to the last of them. -/
theorem parseMeta_append (tail : List Line) :
    ∀ (M : List Line) (prev : Line) (a b : Bool),
      (∀ m ∈ M, binaryMatch (rstrip m) = false ∧ hunkMatch (rstrip m) = none ∧
        ("diff --git".toList).isPrefixOf (rstrip m) = false) →
      ∃ a' b', parseMeta prev a b (M ++ tail) =
        { rem := (parseMeta (M.getLastD prev) a' b' tail).rem
          body := M.map rstrip ++ (parseMeta (M.getLastD prev) a' b' tail).body
          is_binary := (parseMeta (M.getLastD prev) a' b' tail).is_binary
          is_new_file := (parseMeta (M.getLastD prev) a' b' tail).is_new_file
          is_deleted_file := (parseMeta (M.getLastD prev) a' b' tail).is_deleted_file } := by
  intro M
  induction M with
  | nil =>
    intro prev a b _
    exact ⟨a, b, by simp [List.getLastD]⟩
  | cons m M ih =>
    intro prev a b hM
    obtain ⟨hm1, hm2, hm3⟩ := hM m (List.mem_cons_self _ _)
    obtain ⟨a1, b1, hstep⟩ :=
      parseMeta_meta_step prev a b m (M ++ tail) hm1 hm2 hm3
    obtain ⟨a', b', hrec⟩ :=
      ih m a1 b1 (fun x hx => hM x (List.mem_cons_of_mem _ hx))
    refine ⟨a', b', ?_⟩
    rw [List.cons_append, hstep, hrec, List.getLastD_cons]
    simp

/-- The metadata loop at a `diff --git` line: the line is appended to the
body and the loop returns with the scan backed up to `prev`. -/
theorem parseMeta_header_tail (prev : Line) (a b : Bool) (h2 : Line)
    {g : Line × Line} (hh : fileHeaderMatch (rstrip h2) = some g) :
    parseMeta prev a b [h2] =
      { rem := [prev, h2], body := [rstrip h2], is_binary := false,
        is_new_file := a, is_deleted_file := b } := by
  have hpre : ("diff --git a/".toList).isPrefixOf (rstrip h2) = true := by
    have := fileHeaderMatch_pre hh
    rwa [chompNl_rstrip] at this
  obtain ⟨f1, f2, f3, f4, f5, f6, f7⟩ := headerLine_facts (chompNl_rstrip h2) hpre
  simp [parseMeta, f1, f2, f3, f4, f5, f6]
  exact List.isPrefixOf_iff_prefix.mp f7

/-- The metadata loop at a hunk header followed by hunk lines: the whole
hunk block is consumed, the header line being appended twice (once by the
metadata loop, once again by `_parse_hunks`). -/
theorem parseMeta_hunk_tail (prev : Line) (a b : Bool) (hh : Line)
    (hrest : List Line)
    (hhunk : (hunkMatch (rstrip hh)).isSome = true)
    (hbody : ∀ x ∈ hrest, isHunkContentLine (rstrip x) = true ∨
      (hunkMatch (rstrip x)).isSome = true) :
    parseMeta prev a b (hh :: hrest) =
      { rem := [], body := rstrip hh :: (hh :: hrest).map rstrip,
        is_binary := false, is_new_file := a, is_deleted_file := b } := by
  have hpre : ("@@ -".toList).isPrefixOf (rstrip hh) = true := by
    rw [Option.isSome_iff_exists] at hhunk
    obtain ⟨g, hg⟩ := hhunk
    have := hunkMatch_pre hg
    rwa [chompNl_rstrip] at this
  obtain ⟨f1, f2, f3, f4, f5, f6⟩ := hunkLine_facts (chompNl_rstrip hh) hpre
  have hsome : (hunkMatch (rstrip hh)).isSome = true := by
    rw [Option.isSome_iff_exists] at hhunk ⊢
    exact hhunk
  have hph : parseHunks (hh :: hrest) = ([], (hh :: hrest).map rstrip) := by
    unfold parseHunks
    apply parseHunksAux_all _ _ (le_refl _)
    · intro x hx
      rcases List.mem_cons.mp hx with rfl | hx'
      · exact Or.inr hsome
      · exact hbody x hx'
    · exact Or.inr ⟨hh, hrest, rfl, hsome⟩
  simp [parseMeta, f1, f2, f3, f4, f5, hsome, hph]

/-- The last element of a non-empty list, with default. -/
theorem getLastD_mem : ∀ (M : List Line) (d : Line), M ≠ [] → M.getLastD d ∈ M
  | [], _, h => absurd rfl h
  | [m], d, _ => by simp [List.getLastD]
  | m :: m2 :: M, d, _ => by
    rw [List.getLastD_cons]
    exact List.mem_cons_of_mem _ (getLastD_mem (m2 :: M) m (by simp))

/-- The outer parse loop returns its accumulator on empty input, for any
positive fuel. -/
theorem parseLoopAux_nil (fuel : Nat) (acc : List FileChange) (h : 0 < fuel) :
    parseLoopAux fuel acc [] = some acc := by
  cases fuel with
  | zero => omega
  | succ n => rfl

/-- C1 amended: for a well-formed single file section — a `diff --git`
header, plain metadata lines, then a hunk block of hunk headers and
content lines — the parser terminates with one `FileChange` whose `lines`
reproduce the normalized section exactly, EXCEPT that the first hunk
header appears twice (the metadata loop appends it, then `_parse_hunks`
restarts at the same index and appends it again).  Exact reconstruction,
as claimed, fails on every such section (see `c1_counterexample`); stray
lines inside the hunk region would additionally be omitted. -/
theorem c1_section_reconstruction (hdr : Line) (meta : List Line) (hh : Line)
    (hrest : List Line) (g : Line × Line)
    (hhdr : fileHeaderMatch (rstrip hdr) = some g)
    (hMeta : ∀ m ∈ meta, binaryMatch (rstrip m) = false ∧
      hunkMatch (rstrip m) = none ∧
      ("diff --git".toList).isPrefixOf (rstrip m) = false)
    (hHunk : (hunkMatch (rstrip hh)).isSome = true)
    (hBody : ∀ x ∈ hrest, isHunkContentLine (rstrip x) = true ∨
      (hunkMatch (rstrip x)).isSome = true) :
    (parse (hdr :: (meta ++ hh :: hrest))).map (List.map FileChange.lines) =
      some [rstrip hdr ::
        (meta.map rstrip ++ rstrip hh :: (hh :: hrest).map rstrip)] := by
  obtain ⟨a', b', hm⟩ := parseMeta_append (hh :: hrest) meta hdr false false hMeta
  rw [parseMeta_hunk_tail (meta.getLastD hdr) a' b' hh hrest hHunk hBody] at hm
  have hrem : (parseFileChange hdr g.1 g.2 (meta ++ hh :: hrest)).1 = [] := by
    simp [parseFileChange, hm]
  have hlines : (parseFileChange hdr g.1 g.2 (meta ++ hh :: hrest)).2.lines =
      rstrip hdr :: (meta.map rstrip ++ rstrip hh :: (hh :: hrest).map rstrip) := by
    simp [parseFileChange, hm]
  unfold parse
  simp only [parseLoopAux, hhdr]
  rw [hrem]
  rw [parseLoopAux_nil _ _ (by simp)]
  simp [hlines]

/-- Witness for `c1_section_reconstruction` on a concrete section. -/
theorem c1_section_reconstruction_witness :
    (parse ("diff --git a/t b/t\n".toList ::
        (["index 1\n".toList] ++ "@@ -1 +1 @@\n".toList :: ["+a\n".toList]))).map
        (List.map FileChange.lines) =
      some [rstrip "diff --git a/t b/t\n".toList ::
        ((["index 1\n".toList]).map rstrip ++ rstrip "@@ -1 +1 @@\n".toList ::
          (("@@ -1 +1 @@\n".toList :: ["+a\n".toList]).map rstrip))] :=
  c1_section_reconstruction _ _ _ _ ("t".toList, "t".toList)
    (by decide) (by decide) (by decide) (by decide)

/-! ### Claim C2 — a second `diff --git` header before any hunk -/

/-- C2 amended: when a second `diff --git` header follows the first
file's metadata before any hunk, the parser does close the first section
and parse the second file, and no input line is lost — but the second
header line is appended to the FIRST `FileChange`'s `lines` before the
loop backs up, so it appears in BOTH records' `lines` (it is the last
line of the first and the first line of the second), contrary to the
claim. -/
theorem c2_header_before_hunk (h1 h2 : Line) (M : List Line)
    (g1 g2 : Line × Line)
    (hh1 : fileHeaderMatch (rstrip h1) = some g1)
    (hh2 : fileHeaderMatch (rstrip h2) = some g2)
    (hM : M ≠ [])
    (hMeta : ∀ m ∈ M, binaryMatch (rstrip m) = false ∧
      hunkMatch (rstrip m) = none ∧
      ("diff --git".toList).isPrefixOf (rstrip m) = false) :
    (parse (h1 :: (M ++ [h2]))).map (List.map FileChange.lines) =
      some [rstrip h1 :: (M.map rstrip ++ [rstrip h2]), [rstrip h2]] := by
  obtain ⟨a', b', hm⟩ := parseMeta_append [h2] M h1 false false hMeta
  rw [parseMeta_header_tail (M.getLastD h1) a' b' h2 hh2] at hm
  have hrem : (parseFileChange h1 g1.1 g1.2 (M ++ [h2])).1 = [M.getLastD h1, h2] := by
    simp [parseFileChange, hm]
  have hlines1 : (parseFileChange h1 g1.1 g1.2 (M ++ [h2])).2.lines =
      rstrip h1 :: (M.map rstrip ++ [rstrip h2]) := by
    simp [parseFileChange, hm]
  have hprevNone : fileHeaderMatch (rstrip (M.getLastD h1)) = none :=
    fileHeaderMatch_none_of_not_pre (hMeta _ (getLastD_mem M h1 hM)).2.2
  have hrem2 : (parseFileChange h2 g2.1 g2.2 []).1 = [] := by
    simp [parseFileChange, parseMeta]
  have hlines2 : (parseFileChange h2 g2.1 g2.2 []).2.lines = [rstrip h2] := by
    simp [parseFileChange, parseMeta]
  unfold parse
  simp only [parseLoopAux, hh1]
  rw [hrem]
  rw [show (h1 :: (M ++ [h2])).length = (M.length + 1) + 1 from by simp]
  simp only [parseLoopAux, hprevNone]
  simp only [parseLoopAux, hh2]
  rw [hrem2]
  rw [parseLoopAux_nil _ _ (List.length_pos.mpr hM)]
  simp [hlines1, hlines2]

/-- The C2 counterexample input: two file headers separated by one
metadata line, as read by `readlines`. -/
def c2Input : List Line :=
  ["diff --git a/a b/a\n".toList, "index 1\n".toList,
   "diff --git a/b b/b\n".toList]

/-- First `FileChange` parsed from `c2Input`: note the second header as
its last line. -/
def c2Fc1 : FileChange :=
  { old_path := "a".toList
    new_path := "a".toList
    old_start := 0
    old_count := 0
    new_start := 0
    new_count := 0
    lines := ["diff --git a/a b/a".toList, "index 1".toList,
              "diff --git a/b b/b".toList]
    is_binary := false
    is_new_file := false
    is_deleted_file := false }

/-- Second `FileChange` parsed from `c2Input`. -/
def c2Fc2 : FileChange :=
  { old_path := "b".toList
    new_path := "b".toList
    old_start := 0
    old_count := 0
    new_start := 0
    new_count := 0
    lines := ["diff --git a/b b/b".toList]
    is_binary := false
    is_new_file := false
    is_deleted_file := false }

/-- C2 counterexample: the second `diff --git` header line of `c2Input`
appears in the `lines` of BOTH produced `FileChange`s, refuting the claim
that no input line appears in the `lines` of more than one `FileChange`
(in particular that the second header appears only in the second). -/
theorem c2_counterexample :
    parse c2Input = some [c2Fc1, c2Fc2] ∧
      ("diff --git a/b b/b".toList ∈ c2Fc1.lines ∧
       "diff --git a/b b/b".toList ∈ c2Fc2.lines) := by
  refine ⟨by rfl, by decide, by decide⟩

/-- Witness for `c2_header_before_hunk` on the concrete `c2Input`
shape. -/
theorem c2_header_before_hunk_witness :
    (parse ("diff --git a/a b/a\n".toList ::
        (["index 1\n".toList] ++ ["diff --git a/b b/b\n".toList]))).map
        (List.map FileChange.lines) =
      some [rstrip "diff --git a/a b/a\n".toList ::
        ((["index 1\n".toList]).map rstrip ++
          [rstrip "diff --git a/b b/b\n".toList]),
        [rstrip "diff --git a/b b/b\n".toList]] :=
  c2_header_before_hunk _ _ _ ("a".toList, "a".toList) ("b".toList, "b".toList)
    (by decide) (by decide) (by decide) (by decide)

end Diffchunk
